import Mathlib

/-!
Shallow embedding of the BadgerDB-style buffer pool manager from
`src/src/buffer.cpp` (namespace `badgerdb`, class `BufMgr`), together with
proofs about its public operations: `readPage`, `unPinPage`, `allocPage`,
`disposePage`, `flushFile`, and the internal clock-sweep allocator `allocBuf`.

Modelling conventions:
- `File*` pointers are modelled by natural-number file identifiers; the
  descriptor's `file` field is an `Option Nat` (`none` models the null
  pointer left by `Clear`).
- The external hash table `BufHashTbl` is modelled by an association list
  keyed by `(file, pageNo)`; `lookup` returns an `Option` instead of
  throwing `HashNotFoundException`.
- File I/O performed through the `File` collaborator is recorded in an
  event trace (`Ev`), as are descriptor `Clear` calls, so that claims about
  "exactly one writePage" or "a fresh readPage" can be stated.
- The file collaborator keeps one `nextPage` counter per file:
  `allocatePage` returns the counter and bumps it, and `File::readPage`
  succeeds exactly on already-allocated page numbers.
- C++ exceptions become an error result that carries the state as mutated
  up to the throw point, since the C++ objects keep those mutations.
- The `do/while` sweep of `allocBuf` becomes a fuel-indexed recursion; a
  separate theorem shows the chosen fuel `2*numBufs + 1` is never exhausted,
  which is the termination argument for the C++ loop.
-/

namespace BufMgr

/-- Modelled from the spec: `BufDesc` (declared in `buffer.h`, which is not
part of the provided sources). Fields follow spec section 3; the `frameNo`
field is represented by the descriptor's index in the descriptor table and
`file` is `none` when no file is associated (the C++ null pointer). -/
structure BufDesc where
  file : Option Nat
  pageNo : Nat
  pinCnt : Nat
  dirty : Bool
  refbit : Bool
  valid : Bool
  deriving Repr, DecidableEq

/-- Modelled from the spec: `BufDesc::Clear` (in `buffer.h`, not under the
provided sources) resets a descriptor to the invalid state: no file,
`pinCnt = 0`, `dirty = false`, `refbit = false`, `valid = false`. -/
def BufDesc.clearDesc : BufDesc :=
  { file := none, pageNo := 0, pinCnt := 0, dirty := false, refbit := false, valid := false }

/-- Modelled from the spec: `BufDesc::Set(file, pageNo)` (in `buffer.h`, not
under the provided sources) makes the descriptor valid with `pinCnt = 1`,
`dirty = false`, `refbit = true`, and the given identity. -/
def BufDesc.setDesc (file pageNo : Nat) : BufDesc :=
  { file := some file, pageNo := pageNo, pinCnt := 1, dirty := false, refbit := true, valid := true }

instance : Inhabited BufDesc := ⟨BufDesc.clearDesc⟩

/-- Events recording calls on the `File` collaborator plus descriptor
`Clear` calls. -/
inductive Ev where
  | fileRead (file pageNo : Nat)
  | fileWrite (file pageNo : Nat)
  | fileAlloc (file pageNo : Nat)
  | fileDelete (file pageNo : Nat)
  | clearEv (frame : Nat)
  deriving Repr, DecidableEq

/-- The exceptions that `buffer.cpp` can let escape, plus the file
collaborator's invalid-page read failure. -/
inductive BufError where
  | bufferExceeded
  | pageNotPinned
  | pagePinned
  | badBuffer
  | invalidPage
  deriving Repr, DecidableEq

/-- State of one `BufMgr` object plus the per-file `nextPage` counters of
the file collaborator. The page pool itself carries no information the
descriptors do not, so it is elided. -/
structure BufState where
  numBufs : Nat
  descs : List BufDesc
  table : List ((Nat × Nat) × Nat)
  clockHand : Nat
  files : Nat → Nat

/-- Result of an operation: on error, the state as mutated up to the throw
point is kept, as the C++ objects keep it. -/
inductive Res (α : Type) where
  | ok (a : α) (s : BufState) (tr : List Ev)
  | err (e : BufError) (s : BufState) (tr : List Ev)

/-- The state carried by a result, whether ok or error. -/
def Res.state : Res α → BufState
  | .ok _ s _ => s
  | .err _ s _ => s

/-- The event trace carried by a result, whether ok or error. -/
def Res.trace : Res α → List Ev
  | .ok _ _ tr => tr
  | .err _ _ tr => tr

/-- `BufHashTbl::lookup`: first entry with the given `(file, pageNo)` key,
`none` modelling `HashNotFoundException`. -/
def tableLookup (t : List ((Nat × Nat) × Nat)) (k : Nat × Nat) : Option Nat :=
  (t.find? (fun e => e.1 = k)).map (·.2)

/-- `BufHashTbl::remove`: drop the entries with the given key. -/
def tableRemove (t : List ((Nat × Nat) × Nat)) (k : Nat × Nat) : List ((Nat × Nat) × Nat) :=
  t.filter (fun e => ¬ e.1 = k)

/-- `BufMgr::BufMgr(bufs)`: all descriptors invalid, clock hand at
`bufs - 1` so that the first advance visits frame 0. -/
def initState (bufs : Nat) (files : Nat → Nat) : BufState :=
  { numBufs := bufs
    descs := List.replicate bufs BufDesc.clearDesc
    table := []
    clockHand := bufs - 1
    files := files }

/-- Outcome of the clock-sweep loop in `BufMgr::allocBuf`: selection of the
frame under the hand, the `BufferExceededException` throw, or fuel
exhaustion (shown unreachable separately). Each outcome carries the
descriptor table (refbits are cleared during the sweep) and the hand. -/
inductive SweepRes where
  | select (descs : List BufDesc) (hand : Nat)
  | exceeded (descs : List BufDesc) (hand : Nat)
  | noFuel (descs : List BufDesc) (hand : Nat)
  deriving Repr, DecidableEq

/-- The `do { advanceClock(); ... } while(true)` loop of `BufMgr::allocBuf`
(buffer.cpp lines 63-88), with `n = numBufs`, `pc` the local `pinnedCnt`. -/
def allocBufLoop (n : Nat) : List BufDesc → Nat → Nat → Nat → SweepRes
  | descs, hand, _, 0 => .noFuel descs hand
  | descs, hand, pc, fuel + 1 =>
    let h := (hand + 1) % n
    let d := descs.getD h default
    if d.valid = false then
      .select descs h
    else if d.refbit = true then
      allocBufLoop n (descs.set h { d with refbit := false }) h pc fuel
    else if d.pinCnt ≠ 0 then
      if pc + 1 = n then .exceeded descs h
      else allocBufLoop n descs h (pc + 1) fuel
    else
      .select descs h

/-- `BufMgr::allocBuf` (buffer.cpp lines 61-104): run the sweep, then if the
selected frame is valid, write it back when dirty, remove its hash-table
entry, and `Clear` it; return the hand as the chosen frame. -/
def allocBuf (s : BufState) : Res Nat :=
  match allocBufLoop s.numBufs s.descs s.clockHand 0 (2 * s.numBufs + 1) with
  | .exceeded ds h => .err .bufferExceeded { s with descs := ds, clockHand := h } []
  | .noFuel ds h => .err .bufferExceeded { s with descs := ds, clockHand := h } []
  | .select ds h =>
    let d := ds.getD h default
    if d.valid = true then
      .ok h
        { s with
          descs := ds.set h BufDesc.clearDesc
          table := tableRemove s.table (d.file.getD 0, d.pageNo)
          clockHand := h }
        ((if d.dirty = true then [Ev.fileWrite (d.file.getD 0) d.pageNo] else []) ++ [Ev.clearEv h])
    else
      .ok h { s with descs := ds.set h BufDesc.clearDesc, clockHand := h } [Ev.clearEv h]

/-- `BufMgr::readPage` (buffer.cpp lines 107-126). On a hit, set the refbit
and bump the pin count. On a miss, allocate a frame, issue `File::readPage`
(which fails on a not-yet-allocated page number), insert the hash-table
entry and `Set` the descriptor. -/
def readPage (s : BufState) (file pageNo : Nat) : Res Nat :=
  match tableLookup s.table (file, pageNo) with
  | some f =>
    let d := s.descs.getD f default
    .ok f { s with descs := s.descs.set f { d with refbit := true, pinCnt := d.pinCnt + 1 } } []
  | none =>
    match allocBuf s with
    | .err e s' tr => .err e s' tr
    | .ok f s' tr =>
      if pageNo < s'.files file then
        .ok f
          { s' with
            table := ((file, pageNo), f) :: s'.table
            descs := s'.descs.set f (BufDesc.setDesc file pageNo) }
          (tr ++ [Ev.fileRead file pageNo])
      else
        .err .invalidPage s' (tr ++ [Ev.fileRead file pageNo])

/-- `BufMgr::unPinPage` (buffer.cpp lines 129-144): absent page is a no-op;
`pinCnt = 0` raises `PageNotPinnedException`; otherwise decrement `pinCnt`
and set the dirty flag if the argument asks for it (never clear it). -/
def unPinPage (s : BufState) (file pageNo : Nat) (dirty : Bool) : Res Unit :=
  match tableLookup s.table (file, pageNo) with
  | none => .ok () s []
  | some f =>
    let d := s.descs.getD f default
    if d.pinCnt = 0 then
      .err .pageNotPinned s []
    else
      .ok ()
        { s with descs := s.descs.set f { d with pinCnt := d.pinCnt - 1, dirty := d.dirty || dirty } }
        []

/-- `BufMgr::allocPage` (buffer.cpp lines 146-163): `File::allocatePage`
first, then `allocBuf`, then hash-table insert and `Set`. -/
def allocPage (s : BufState) (file : Nat) : Res (Nat × Nat) :=
  let newPageNo := s.files file
  let s1 : BufState := { s with files := fun n => if n = file then s.files file + 1 else s.files n }
  match allocBuf s1 with
  | .err e s' tr => .err e s' (Ev.fileAlloc file newPageNo :: tr)
  | .ok f s' tr =>
    .ok (newPageNo, f)
      { s' with
        table := ((file, newPageNo), f) :: s'.table
        descs := s'.descs.set f (BufDesc.setDesc file newPageNo) }
      (Ev.fileAlloc file newPageNo :: tr)

/-- `BufMgr::disposePage` (buffer.cpp lines 165-180): if resident, `Clear`
the descriptor and remove the hash-table entry, with no pin check; in any
case call `File::deletePage`. -/
def disposePage (s : BufState) (file pageNo : Nat) : Res Unit :=
  match tableLookup s.table (file, pageNo) with
  | some f =>
    .ok ()
      { s with descs := s.descs.set f BufDesc.clearDesc, table := tableRemove s.table (file, pageNo) }
      [Ev.clearEv f, Ev.fileDelete file pageNo]
  | none => .ok () s [Ev.fileDelete file pageNo]

/-- The frame-scanning loop of `BufMgr::flushFile` (buffer.cpp lines
184-199), processing the given frame indices in order. -/
def flushFileGo (file : Nat) : List Nat → BufState → List Ev → Res Unit
  | [], s, tr => .ok () s tr
  | i :: rest, s, tr =>
    let d := s.descs.getD i default
    if d.file = some file then
      if d.pinCnt ≠ 0 then .err .pagePinned s tr
      else if d.valid = false then .err .badBuffer s tr
      else
        flushFileGo file rest
          { s with
            table := tableRemove s.table (file, d.pageNo)
            descs := s.descs.set i BufDesc.clearDesc }
          (tr ++ (if d.dirty = true then [Ev.fileWrite file d.pageNo] else []) ++ [Ev.clearEv i])
    else
      flushFileGo file rest s tr

/-- `BufMgr::flushFile` (buffer.cpp lines 182-200). -/
def flushFile (s : BufState) (file : Nat) : Res Unit :=
  flushFileGo file (List.range s.numBufs) s []


/-! ### Generic helper lemmas -/

theorem getD_set_self {l : List BufDesc} {i : Nat} {a d : BufDesc} (h : i < l.length) :
    (l.set i a).getD i d = a := by
  simp [List.getD, List.getElem?_set_self, h]

theorem getD_set_ne {l : List BufDesc} {i j : Nat} {a d : BufDesc} (h : i ≠ j) :
    (l.set i a).getD j d = l.getD j d := by
  simp [List.getD, List.getElem?_set_ne h]

theorem tableLookup_cons {e : (Nat × Nat) × Nat} {t : List ((Nat × Nat) × Nat)} {k : Nat × Nat} :
    tableLookup (e :: t) k = if e.1 = k then some e.2 else tableLookup t k := by
  unfold tableLookup
  rw [List.find?_cons]
  by_cases h : e.1 = k <;> simp [h]

theorem tableRemove_cons {e : (Nat × Nat) × Nat} {t : List ((Nat × Nat) × Nat)} {k : Nat × Nat} :
    tableRemove (e :: t) k = if e.1 = k then tableRemove t k else e :: tableRemove t k := by
  unfold tableRemove
  rw [List.filter_cons]
  by_cases h : e.1 = k <;> simp [h]

theorem tableLookup_remove_self {t : List ((Nat × Nat) × Nat)} {k : Nat × Nat} :
    tableLookup (tableRemove t k) k = none := by
  induction t with
  | nil => rfl
  | cons e t ih =>
    rw [tableRemove_cons]
    by_cases h : e.1 = k
    · rw [if_pos h]; exact ih
    · rw [if_neg h, tableLookup_cons, if_neg h]; exact ih

theorem tableLookup_remove_ne {t : List ((Nat × Nat) × Nat)} {k k' : Nat × Nat} (h : k ≠ k') :
    tableLookup (tableRemove t k') k = tableLookup t k := by
  induction t with
  | nil => rfl
  | cons e t ih =>
    rw [tableRemove_cons, tableLookup_cons]
    by_cases he : e.1 = k'
    · have hek : ¬ e.1 = k := fun hk => h ((hk ▸ he : k = k'))
      rw [if_pos he, if_neg hek]; exact ih
    · rw [if_neg he, tableLookup_cons]
      by_cases hek : e.1 = k
      · rw [if_pos hek, if_pos hek]
      · rw [if_neg hek, if_neg hek]; exact ih

theorem tableLookup_eq_some {t : List ((Nat × Nat) × Nat)} {k : Nat × Nat} {v : Nat}
    (h : tableLookup t k = some v) : (k, v) ∈ t := by
  induction t with
  | nil => simp [tableLookup] at h
  | cons e t ih =>
    rw [tableLookup_cons] at h
    by_cases he : e.1 = k
    · rw [if_pos he] at h
      have : e = (k, v) := by
        cases e with
        | mk ek ev =>
          simp at he ⊢
          simp at h
          exact ⟨he, h⟩
      simp [this]
    · rw [if_neg he] at h
      exact List.mem_cons_of_mem _ (ih h)

theorem tableLookup_none_of_remove {t : List ((Nat × Nat) × Nat)} {k k' : Nat × Nat}
    (h : tableLookup t k = none) : tableLookup (tableRemove t k') k = none := by
  by_cases hk : k = k'
  · subst hk; exact tableLookup_remove_self
  · rw [tableLookup_remove_ne hk]; exact h

theorem mem_of_mem_tableRemove {t : List ((Nat × Nat) × Nat)} {k : Nat × Nat}
    {e : (Nat × Nat) × Nat} (h : e ∈ tableRemove t k) : e ∈ t ∧ e.1 ≠ k := by
  unfold tableRemove at h
  refine ⟨List.mem_of_mem_filter h, ?_⟩
  have := List.of_mem_filter h
  simpa using this

/-! ### Sweep structure: only refbits change, and outcomes carry bounded hands -/

/-- Descriptor list carried by a sweep outcome. -/
def SweepRes.descsOf : SweepRes → List BufDesc
  | .select ds _ => ds
  | .exceeded ds _ => ds
  | .noFuel ds _ => ds

/-- Hand carried by a sweep outcome. -/
def SweepRes.handOf : SweepRes → Nat
  | .select _ h => h
  | .exceeded _ h => h
  | .noFuel _ h => h

/-- Pointwise agreement of two descriptors on every field except `refbit`. -/
def sameExceptRefbit (d d' : BufDesc) : Prop :=
  d'.file = d.file ∧ d'.pageNo = d.pageNo ∧ d'.pinCnt = d.pinCnt ∧
    d'.dirty = d.dirty ∧ d'.valid = d.valid

instance : DecidablePred (fun p : BufDesc × BufDesc => sameExceptRefbit p.1 p.2) := by
  intro p; unfold sameExceptRefbit; infer_instance

/-- The descriptor tables agree everywhere except possibly on refbits. -/
def descsSameExceptRefbit (ds ds' : List BufDesc) : Prop :=
  ds'.length = ds.length ∧ ∀ i, sameExceptRefbit (ds.getD i default) (ds'.getD i default)

theorem sameExceptRefbit_refl (d : BufDesc) : sameExceptRefbit d d :=
  ⟨rfl, rfl, rfl, rfl, rfl⟩

theorem descsSameExceptRefbit_refl (ds : List BufDesc) : descsSameExceptRefbit ds ds :=
  ⟨rfl, fun _ => sameExceptRefbit_refl _⟩

theorem descsSameExceptRefbit_trans {a b c : List BufDesc}
    (h1 : descsSameExceptRefbit a b) (h2 : descsSameExceptRefbit b c) :
    descsSameExceptRefbit a c := by
  refine ⟨h2.1.trans h1.1, fun i => ?_⟩
  obtain ⟨f1, p1, c1, d1, v1⟩ := h1.2 i
  obtain ⟨f2, p2, c2, d2, v2⟩ := h2.2 i
  exact ⟨f2.trans f1, p2.trans p1, c2.trans c1, d2.trans d1, v2.trans v1⟩

theorem descsSameExceptRefbit_set_refbit {ds : List BufDesc} {h : Nat}
    (hlt : h < ds.length) :
    descsSameExceptRefbit ds (ds.set h { ds.getD h default with refbit := false }) := by
  refine ⟨by simp, fun i => ?_⟩
  by_cases hih : h = i
  · subst hih
    rw [getD_set_self hlt]
    exact ⟨rfl, rfl, rfl, rfl, rfl⟩
  · rw [getD_set_ne hih]
    exact sameExceptRefbit_refl _

theorem allocBufLoop_succ (n : Nat) (descs : List BufDesc) (hand pc fuel : Nat) :
    allocBufLoop n descs hand pc (fuel + 1) =
      (if (descs.getD ((hand + 1) % n) default).valid = false then
        SweepRes.select descs ((hand + 1) % n)
      else if (descs.getD ((hand + 1) % n) default).refbit = true then
        allocBufLoop n
          (descs.set ((hand + 1) % n) { descs.getD ((hand + 1) % n) default with refbit := false })
          ((hand + 1) % n) pc fuel
      else if (descs.getD ((hand + 1) % n) default).pinCnt ≠ 0 then
        if pc + 1 = n then SweepRes.exceeded descs ((hand + 1) % n)
        else allocBufLoop n descs ((hand + 1) % n) (pc + 1) fuel
      else SweepRes.select descs ((hand + 1) % n)) := rfl

/-- If the sweep is at a frame whose `valid` flag is not `false`, that frame
index is within the descriptor table (the default descriptor is invalid). -/
theorem lt_length_of_getD_valid {descs : List BufDesc} {h : Nat}
    (hv : ¬ (descs.getD h default).valid = false) : h < descs.length := by
  by_contra hge
  push_neg at hge
  have : descs.getD h default = default := List.getD_eq_default _ _ hge
  rw [this] at hv
  simp [default, BufDesc.clearDesc] at hv

theorem allocBufLoop_descs_sameExceptRefbit (n : Nat) :
    ∀ fuel descs hand pc,
      descsSameExceptRefbit descs (allocBufLoop n descs hand pc fuel).descsOf := by
  intro fuel
  induction fuel with
  | zero => intro descs hand pc; exact descsSameExceptRefbit_refl _
  | succ fuel ih =>
    intro descs hand pc
    rw [allocBufLoop_succ]
    by_cases hv : (descs.getD ((hand + 1) % n) default).valid = false
    · rw [if_pos hv]; exact descsSameExceptRefbit_refl _
    rw [if_neg hv]
    by_cases hr : (descs.getD ((hand + 1) % n) default).refbit = true
    · rw [if_pos hr]
      exact descsSameExceptRefbit_trans
        (descsSameExceptRefbit_set_refbit (lt_length_of_getD_valid hv)) (ih _ _ _)
    rw [if_neg hr]
    by_cases hp : (descs.getD ((hand + 1) % n) default).pinCnt ≠ 0
    · rw [if_pos hp]
      by_cases hpc : pc + 1 = n
      · rw [if_pos hpc]; exact descsSameExceptRefbit_refl _
      · rw [if_neg hpc]; exact ih _ _ _
    · rw [if_neg hp]; exact descsSameExceptRefbit_refl _


/-! ### Termination of the sweep: the fuel `2 * numBufs + 1` is never exhausted -/

/-- Number of set reference bits; together with the headroom of the local
`pinnedCnt` this is the termination measure of the C++ `do/while` loop. -/
def countRef (ds : List BufDesc) : Nat := ds.countP (fun d => d.refbit)

theorem countRef_set_clear :
    ∀ (ds : List BufDesc) (h : Nat), h < ds.length → (ds.getD h default).refbit = true →
      countRef (ds.set h { ds.getD h default with refbit := false }) + 1 = countRef ds := by
  intro ds
  induction ds with
  | nil => intro h hlt; simp at hlt
  | cons a t ih =>
    intro h hlt hr
    cases h with
    | zero =>
      simp only [List.getD_cons_zero] at hr ⊢
      simp [countRef, List.countP_cons, hr]
    | succ h =>
      simp only [List.getD_cons_succ] at hr ⊢
      have hlt' : h < t.length := by simpa using hlt
      have := ih h hlt' hr
      simp only [List.set_cons_succ, countRef, List.countP_cons] at this ⊢
      omega

theorem allocBufLoop_not_noFuel (n : Nat) :
    ∀ fuel descs hand pc, pc < n → countRef descs + (n - pc) ≤ fuel →
      ∀ ds h, allocBufLoop n descs hand pc fuel ≠ .noFuel ds h := by
  intro fuel
  induction fuel with
  | zero =>
    intro descs hand pc hpc hle
    omega
  | succ fuel ih =>
    intro descs hand pc hpc hle ds h
    rw [allocBufLoop_succ]
    by_cases hv : (descs.getD ((hand + 1) % n) default).valid = false
    · rw [if_pos hv]; intro hcon; cases hcon
    rw [if_neg hv]
    by_cases hr : (descs.getD ((hand + 1) % n) default).refbit = true
    · rw [if_pos hr]
      have hlt := lt_length_of_getD_valid hv
      have hcnt := countRef_set_clear descs _ hlt hr
      exact ih _ _ _ hpc (by omega) ds h
    rw [if_neg hr]
    by_cases hp : (descs.getD ((hand + 1) % n) default).pinCnt ≠ 0
    · rw [if_pos hp]
      by_cases hn : pc + 1 = n
      · rw [if_pos hn]; intro hcon; cases hcon
      · rw [if_neg hn]
        exact ih _ _ _ (by omega) (by omega) ds h
    · rw [if_neg hp]; intro hcon; cases hcon

theorem allocBufLoop_hand_lt (n : Nat) (hn : 0 < n) :
    ∀ fuel descs hand pc,
      (∀ ds h, allocBufLoop n descs hand pc fuel = .select ds h → h < n) ∧
      (∀ ds h, allocBufLoop n descs hand pc fuel = .exceeded ds h → h < n) := by
  intro fuel
  induction fuel with
  | zero =>
    intro descs hand pc
    constructor <;> (intro ds h hcon; cases hcon)
  | succ fuel ih =>
    intro descs hand pc
    have hmod : (hand + 1) % n < n := Nat.mod_lt _ hn
    constructor <;> intro ds h heq <;> rw [allocBufLoop_succ] at heq
    · by_cases hv : (descs.getD ((hand + 1) % n) default).valid = false
      · rw [if_pos hv] at heq; cases heq; exact hmod
      rw [if_neg hv] at heq
      by_cases hr : (descs.getD ((hand + 1) % n) default).refbit = true
      · rw [if_pos hr] at heq; exact (ih _ _ _).1 ds h heq
      rw [if_neg hr] at heq
      by_cases hp : (descs.getD ((hand + 1) % n) default).pinCnt ≠ 0
      · rw [if_pos hp] at heq
        by_cases hc : pc + 1 = n
        · rw [if_pos hc] at heq; cases heq
        · rw [if_neg hc] at heq; exact (ih _ _ _).1 ds h heq
      · rw [if_neg hp] at heq; cases heq; exact hmod
    · by_cases hv : (descs.getD ((hand + 1) % n) default).valid = false
      · rw [if_pos hv] at heq; cases heq
      rw [if_neg hv] at heq
      by_cases hr : (descs.getD ((hand + 1) % n) default).refbit = true
      · rw [if_pos hr] at heq; exact (ih _ _ _).2 ds h heq
      rw [if_neg hr] at heq
      by_cases hp : (descs.getD ((hand + 1) % n) default).pinCnt ≠ 0
      · rw [if_pos hp] at heq
        by_cases hc : pc + 1 = n
        · rw [if_pos hc] at heq; cases heq; exact hmod
        · rw [if_neg hc] at heq; exact (ih _ _ _).2 ds h heq
      · rw [if_neg hp] at heq; cases heq

theorem allocBufLoop_no_select_of_allPinned (n : Nat) (hn : 0 < n) :
    ∀ fuel descs hand pc,
      (∀ i, i < n → (descs.getD i default).valid = true ∧ (descs.getD i default).pinCnt ≠ 0) →
      ∀ ds h, allocBufLoop n descs hand pc fuel ≠ .select ds h := by
  intro fuel
  induction fuel with
  | zero => intro descs hand pc _ ds h hcon; cases hcon
  | succ fuel ih =>
    intro descs hand pc hall ds h
    have hmod : (hand + 1) % n < n := Nat.mod_lt _ hn
    obtain ⟨hvd, hpd⟩ := hall _ hmod
    rw [allocBufLoop_succ]
    have hv : ¬ (descs.getD ((hand + 1) % n) default).valid = false := by rw [hvd]; simp
    rw [if_neg hv]
    by_cases hr : (descs.getD ((hand + 1) % n) default).refbit = true
    · rw [if_pos hr]
      refine ih _ _ _ (fun i hi => ?_) ds h
      by_cases hih : (hand + 1) % n = i
      · subst hih
        rw [getD_set_self (lt_length_of_getD_valid hv)]
        exact ⟨hvd, hpd⟩
      · rw [getD_set_ne hih]
        exact hall i hi
    rw [if_neg hr, if_pos hpd]
    by_cases hc : pc + 1 = n
    · rw [if_pos hc]; intro hcon; cases hcon
    · rw [if_neg hc]; exact ih _ _ _ hall ds h

/-! ### With an invalid frame present, the sweep always selects -/

theorem allocBufLoop_select_of_invalid (n : Nat) :
    ∀ dist fuel descs hand pc,
      (descs.getD ((hand + 1 + dist) % n) default).valid = false →
      pc + dist < n → dist + 1 ≤ fuel →
      ∃ ds h, allocBufLoop n descs hand pc fuel = .select ds h := by
  intro dist
  induction dist with
  | zero =>
    intro fuel descs hand pc hinv hlt hfuel
    obtain ⟨fuel, rfl⟩ : ∃ k, fuel = k + 1 := ⟨fuel - 1, by omega⟩
    rw [allocBufLoop_succ]
    rw [show hand + 1 + 0 = hand + 1 from rfl] at hinv
    rw [if_pos hinv]
    exact ⟨descs, _, rfl⟩
  | succ dist ih =>
    intro fuel descs hand pc hinv hlt hfuel
    obtain ⟨fuel, rfl⟩ : ∃ k, fuel = k + 1 := ⟨fuel - 1, by omega⟩
    rw [allocBufLoop_succ]
    by_cases hv : (descs.getD ((hand + 1) % n) default).valid = false
    · rw [if_pos hv]; exact ⟨descs, _, rfl⟩
    rw [if_neg hv]
    have hne : (hand + 1 + (dist + 1)) % n ≠ (hand + 1) % n := by
      intro he
      rw [he] at hinv
      exact hv hinv
    have hmodeq : ((hand + 1) % n + 1 + dist) % n = (hand + 1 + (dist + 1)) % n := by
      rw [show (hand + 1) % n + 1 + dist = (hand + 1) % n + (1 + dist) from by omega,
        Nat.mod_add_mod]
      congr 1
      omega
    by_cases hr : (descs.getD ((hand + 1) % n) default).refbit = true
    · rw [if_pos hr]
      refine ih fuel _ _ _ ?_ (by omega) (by omega)
      rw [hmodeq, getD_set_ne (fun he => hne he.symm)]
      exact hinv
    rw [if_neg hr]
    by_cases hp : (descs.getD ((hand + 1) % n) default).pinCnt ≠ 0
    · rw [if_pos hp]
      have hc : ¬ pc + 1 = n := by omega
      rw [if_neg hc]
      refine ih fuel _ _ _ ?_ (by omega) (by omega)
      rw [hmodeq]
      exact hinv
    · rw [if_neg hp]; exact ⟨descs, _, rfl⟩

/-! ### The main invariant (spec section 8, claim C1) -/

/-- The buffer-manager invariant: a positive pool whose descriptor table has
`numBufs` entries; every valid frame has a file and is indexed by the page
table under its own identity; every page-table entry targets a valid frame
with matching identity; and every page-table key names an
already-allocated page of its file (which makes `allocatePage` results
fresh). -/
def Inv (s : BufState) : Prop :=
  0 < s.numBufs ∧
  s.descs.length = s.numBufs ∧
  (∀ i, i < s.numBufs → (s.descs.getD i default).valid = true →
    (s.descs.getD i default).file.isSome = true ∧
    tableLookup s.table ((s.descs.getD i default).file.getD 0, (s.descs.getD i default).pageNo)
      = some i) ∧
  (∀ e ∈ s.table, e.2 < s.numBufs ∧ (s.descs.getD e.2 default).valid = true ∧
    (s.descs.getD e.2 default).file = some e.1.1 ∧ (s.descs.getD e.2 default).pageNo = e.1.2) ∧
  (∀ e ∈ s.table, e.1.2 < s.files e.1.1)

theorem tableLookup_fresh {t : List ((Nat × Nat) × Nat)} {files : Nat → Nat} {file : Nat}
    (h : ∀ e ∈ t, e.1.2 < files e.1.1) : tableLookup t (file, files file) = none := by
  unfold tableLookup
  cases hf : t.find? (fun e => e.1 = (file, files file)) with
  | none => rfl
  | some e =>
    exfalso
    have hmem := List.mem_of_find?_eq_some hf
    have hkey := List.find?_some hf
    simp at hkey
    have := h e hmem
    rw [hkey] at this
    simp at this

theorem Inv_of_sameExceptRefbit {s : BufState} {ds : List BufDesc} {c : Nat}
    (hds : descsSameExceptRefbit s.descs ds) (hInv : Inv s) :
    Inv { s with descs := ds, clockHand := c } := by
  obtain ⟨hn, hlen, hvalid, hentry, hfresh⟩ := hInv
  refine ⟨hn, by rw [hds.1]; exact hlen, ?_, ?_, hfresh⟩
  · intro i hi hv
    obtain ⟨hf, hp, hc, hd, hvv⟩ := hds.2 i
    rw [hf, hp]
    exact hvalid i hi (by rw [← hvv]; exact hv)
  · intro e he
    obtain ⟨h1, h2, h3, h4⟩ := hentry e he
    obtain ⟨hf, hp, hc, hd, hvv⟩ := hds.2 e.2
    exact ⟨h1, by rw [hvv]; exact h2, by rw [hf]; exact h3, by rw [hp]; exact h4⟩

theorem Inv_clearFrame {s : BufState} (hInv : Inv s) {f : Nat}
    (hvalid : (s.descs.getD f default).valid = true) :
    Inv { s with
          descs := s.descs.set f BufDesc.clearDesc
          table := tableRemove s.table
            ((s.descs.getD f default).file.getD 0, (s.descs.getD f default).pageNo) } := by
  obtain ⟨hn, hlen, hvalidI, hentry, hfresh⟩ := hInv
  set k : Nat × Nat :=
    ((s.descs.getD f default).file.getD 0, (s.descs.getD f default).pageNo) with hk
  have hflt : f < s.descs.length := lt_length_of_getD_valid (by rw [hvalid]; simp)
  have hfn : f < s.numBufs := hlen ▸ hflt
  have hlookupk : tableLookup s.table k = some f := (hvalidI f hfn hvalid).2
  refine ⟨hn, by simpa using hlen, ?_, ?_, ?_⟩
  · intro i hi hv
    by_cases hif : f = i
    · subst hif
      rw [getD_set_self hflt] at hv
      simp [BufDesc.clearDesc] at hv
    · rw [getD_set_ne hif] at hv ⊢
      obtain ⟨hsome, hlook⟩ := hvalidI i hi hv
      refine ⟨hsome, ?_⟩
      have hkne : ((s.descs.getD i default).file.getD 0, (s.descs.getD i default).pageNo) ≠ k := by
        intro he
        rw [he, hlookupk] at hlook
        exact hif (by injection hlook)
      rw [tableLookup_remove_ne hkne]
      exact hlook
  · intro e he
    obtain ⟨hmem, hne⟩ := mem_of_mem_tableRemove he
    obtain ⟨h1, h2, h3, h4⟩ := hentry e hmem
    have hef : e.2 ≠ f := by
      intro hef
      apply hne
      rw [hef] at h3 h4
      rw [hk, h3, h4]
      simp
    rw [getD_set_ne (fun hx => hef hx.symm)]
    exact ⟨h1, h2, h3, h4⟩
  · intro e he
    exact hfresh e (mem_of_mem_tableRemove he).1

theorem Inv_clearFrame_invalid {s : BufState} (hInv : Inv s) {f : Nat}
    (hvalid : (s.descs.getD f default).valid = false) :
    Inv { s with descs := s.descs.set f BufDesc.clearDesc } := by
  obtain ⟨hn, hlen, hvalidI, hentry, hfresh⟩ := hInv
  refine ⟨hn, by simpa using hlen, ?_, ?_, hfresh⟩
  · intro i hi hv
    by_cases hif : f = i
    · subst hif
      by_cases hfl : f < s.descs.length
      · rw [getD_set_self hfl] at hv
        simp [BufDesc.clearDesc] at hv
      · rw [List.getD_eq_default] at hv
        · simp [default, BufDesc.clearDesc] at hv
        · simp only [List.length_set]
          omega
    · rw [getD_set_ne hif] at hv ⊢
      exact hvalidI i hi hv
  · intro e he
    obtain ⟨h1, h2, h3, h4⟩ := hentry e he
    have hef : e.2 ≠ f := by
      intro hef
      rw [hef] at h2
      rw [h2] at hvalid
      cases hvalid
    rw [getD_set_ne (fun hx => hef hx.symm)]
    exact ⟨h1, h2, h3, h4⟩

theorem Inv_insertFrame {s : BufState} (hInv : Inv s) {f file pageNo : Nat}
    (hf : f < s.numBufs)
    (hclear : (s.descs.getD f default).valid = false)
    (hnone : tableLookup s.table (file, pageNo) = none)
    (hfresh : pageNo < s.files file) :
    Inv { s with
          descs := s.descs.set f (BufDesc.setDesc file pageNo)
          table := ((file, pageNo), f) :: s.table } := by
  obtain ⟨hn, hlen, hvalidI, hentry, hfreshI⟩ := hInv
  have hflt : f < s.descs.length := hlen ▸ hf
  refine ⟨hn, by simpa using hlen, ?_, ?_, ?_⟩
  · intro i hi hv
    by_cases hif : f = i
    · subst hif
      rw [getD_set_self hflt]
      refine ⟨by simp [BufDesc.setDesc], ?_⟩
      rw [tableLookup_cons]
      simp [BufDesc.setDesc]
    · rw [getD_set_ne hif] at hv ⊢
      obtain ⟨hsome, hlook⟩ := hvalidI i hi hv
      refine ⟨hsome, ?_⟩
      rw [tableLookup_cons]
      have hkne :
          ¬ ((file, pageNo) : Nat × Nat)
            = ((s.descs.getD i default).file.getD 0, (s.descs.getD i default).pageNo) := by
        intro he
        rw [← he, hnone] at hlook
        cases hlook
      rw [if_neg hkne]
      exact hlook
  · intro e he
    rcases List.mem_cons.mp he with he | he
    · subst he
      simp only
      rw [getD_set_self hflt]
      exact ⟨hf, rfl, rfl, rfl⟩
    · obtain ⟨h1, h2, h3, h4⟩ := hentry e he
      have hef : e.2 ≠ f := by
        intro hef
        rw [hef] at h2
        rw [h2] at hclear
        cases hclear
      rw [getD_set_ne (fun hx => hef hx.symm)]
      exact ⟨h1, h2, h3, h4⟩
  · intro e he
    rcases List.mem_cons.mp he with he | he
    · subst he; exact hfresh
    · exact hfreshI e he

theorem Inv_updateSameIdentity {s : BufState} (hInv : Inv s) {f : Nat} {d' : BufDesc}
    (hfile : d'.file = (s.descs.getD f default).file)
    (hpage : d'.pageNo = (s.descs.getD f default).pageNo)
    (hval : d'.valid = (s.descs.getD f default).valid) :
    Inv { s with descs := s.descs.set f d' } := by
  obtain ⟨hn, hlen, hvalidI, hentry, hfresh⟩ := hInv
  refine ⟨hn, by simpa using hlen, ?_, ?_, hfresh⟩
  · intro i hi hv
    by_cases hif : f = i
    · subst hif
      by_cases hfl : f < s.descs.length
      · rw [getD_set_self hfl] at hv ⊢
        rw [hfile, hpage]
        exact hvalidI f hi (hval ▸ hv)
      · rw [List.getD_eq_default] at hv
        · simp [default, BufDesc.clearDesc] at hv
        · simp only [List.length_set]; omega
    · rw [getD_set_ne hif] at hv ⊢
      exact hvalidI i hi hv
  · intro e he
    obtain ⟨h1, h2, h3, h4⟩ := hentry e he
    by_cases hef : e.2 = f
    · subst hef
      have hfl : e.2 < s.descs.length := lt_length_of_getD_valid (by rw [h2]; simp)
      rw [getD_set_self hfl]
      exact ⟨h1, by rw [hval]; exact h2, by rw [hfile]; exact h3, by rw [hpage]; exact h4⟩
    · rw [getD_set_ne (fun hx => hef hx.symm)]
      exact ⟨h1, h2, h3, h4⟩

/-! ### Invariant preservation by each operation -/

theorem Inv_initState {bufs : Nat} (files : Nat → Nat) (h : 0 < bufs) :
    Inv (initState bufs files) := by
  refine ⟨h, by simp [initState], ?_, ?_, ?_⟩
  · intro i hi hv
    exfalso
    rw [initState] at hv
    simp only at hv
    rw [List.getD_eq_getElem?_getD, List.getElem?_replicate] at hv
    simp only [initState] at hi
    rw [if_pos hi] at hv
    simp [BufDesc.clearDesc] at hv
  · intro e he; simp [initState] at he
  · intro e he; simp [initState] at he

theorem Inv_allocBuf (s : BufState) (hInv : Inv s) : Inv (allocBuf s).state := by
  unfold allocBuf
  have hds := allocBufLoop_descs_sameExceptRefbit s.numBufs (2 * s.numBufs + 1)
    s.descs s.clockHand 0
  cases hr : allocBufLoop s.numBufs s.descs s.clockHand 0 (2 * s.numBufs + 1) with
  | exceeded ds h =>
    rw [hr] at hds
    exact Inv_of_sameExceptRefbit hds hInv
  | noFuel ds h =>
    rw [hr] at hds
    exact Inv_of_sameExceptRefbit hds hInv
  | select ds h =>
    rw [hr] at hds
    have hmid : Inv { s with descs := ds, clockHand := h } := Inv_of_sameExceptRefbit hds hInv
    dsimp only
    by_cases hv : (ds.getD h default).valid = true
    · rw [if_pos hv]
      exact Inv_clearFrame hmid hv
    · rw [if_neg hv]
      exact Inv_clearFrame_invalid hmid (by simpa using hv)

theorem allocBuf_ok_facts {s : BufState} (hInv : Inv s) {f : Nat} {s' : BufState} {tr : List Ev}
    (h : allocBuf s = .ok f s' tr) :
    Inv s' ∧ f < s.numBufs ∧ s'.numBufs = s.numBufs ∧ s'.files = s.files ∧
    (s'.descs.getD f default).valid = false ∧
    (∀ k, tableLookup s.table k = none → tableLookup s'.table k = none) ∧
    Ev.clearEv f ∈ tr := by
  have hInv' : Inv s' := by
    have hstate := Inv_allocBuf s hInv
    rw [h] at hstate
    exact hstate
  have hds := allocBufLoop_descs_sameExceptRefbit s.numBufs (2 * s.numBufs + 1)
    s.descs s.clockHand 0
  unfold allocBuf at h
  cases hr : allocBufLoop s.numBufs s.descs s.clockHand 0 (2 * s.numBufs + 1) with
  | exceeded ds hh => rw [hr] at h; cases h
  | noFuel ds hh => rw [hr] at h; cases h
  | select ds hh =>
    rw [hr] at h hds
    simp only [SweepRes.descsOf] at hds
    have hhn : hh < s.numBufs :=
      (allocBufLoop_hand_lt s.numBufs hInv.1 (2 * s.numBufs + 1) s.descs s.clockHand 0).1
        ds hh hr
    have hlen : ds.length = s.numBufs := by
      rw [hds.1]
      exact hInv.2.1
    have hhlt : hh < ds.length := by omega
    dsimp only at h
    by_cases hv : (ds.getD hh default).valid = true
    · rw [if_pos hv] at h
      injection h with h1 h2 h3
      subst h1
      refine ⟨hInv', hhn, by rw [← h2], by rw [← h2], ?_, ?_, ?_⟩
      · rw [← h2]
        dsimp only
        rw [getD_set_self hhlt]
        rfl
      · intro k hk
        rw [← h2]
        exact tableLookup_none_of_remove hk
      · rw [← h3]
        exact List.mem_append_right _ (by simp)
    · rw [if_neg hv] at h
      injection h with h1 h2 h3
      subst h1
      refine ⟨hInv', hhn, by rw [← h2], by rw [← h2], ?_, ?_, ?_⟩
      · rw [← h2]
        dsimp only
        rw [getD_set_self hhlt]
        rfl
      · intro k hk
        rw [← h2]
        exact hk
      · rw [← h3]
        simp

theorem Inv_readPage (s : BufState) (file pageNo : Nat) (hInv : Inv s) :
    Inv (readPage s file pageNo).state := by
  unfold readPage
  cases hl : tableLookup s.table (file, pageNo) with
  | some f =>
    dsimp only [Res.state]
    have hmem := tableLookup_eq_some hl
    obtain ⟨_, _, h3, h4⟩ := hInv.2.2.2.1 _ hmem
    exact Inv_updateSameIdentity hInv (by rw [h3]) (by rw [h4]) rfl
  | none =>
    cases ha : allocBuf s with
    | err e s' tr =>
      dsimp only [Res.state]
      have hstate := Inv_allocBuf s hInv
      rw [ha] at hstate
      exact hstate
    | ok f s' tr =>
      obtain ⟨hInv', hfn, hnum, hfiles, hvalid, hnone, _⟩ := allocBuf_ok_facts hInv ha
      dsimp only
      by_cases hrd : pageNo < s'.files file
      · rw [if_pos hrd]
        dsimp only [Res.state]
        exact Inv_insertFrame hInv' (by omega) hvalid (hnone _ hl) hrd
      · rw [if_neg hrd]
        exact hInv'

theorem Inv_unPinPage (s : BufState) (file pageNo : Nat) (dirty : Bool) (hInv : Inv s) :
    Inv (unPinPage s file pageNo dirty).state := by
  unfold unPinPage
  cases hl : tableLookup s.table (file, pageNo) with
  | none => exact hInv
  | some f =>
    dsimp only
    by_cases hp : (s.descs.getD f default).pinCnt = 0
    · rw [if_pos hp]
      exact hInv
    · rw [if_neg hp]
      exact Inv_updateSameIdentity hInv rfl rfl rfl

theorem Inv_allocPage (s : BufState) (file : Nat) (hInv : Inv s) :
    Inv (allocPage s file).state := by
  have hInv1 : Inv { s with files := fun n => if n = file then s.files file + 1 else s.files n } := by
    obtain ⟨hn, hlen, hvalidI, hentry, hfresh⟩ := hInv
    refine ⟨hn, hlen, hvalidI, hentry, ?_⟩
    intro e he
    have hlt := hfresh e he
    dsimp only
    by_cases hef : e.1.1 = file
    · rw [if_pos hef]
      rw [hef] at hlt
      omega
    · rw [if_neg hef]
      exact hlt
  have hfreshTop : tableLookup s.table (file, s.files file) = none :=
    tableLookup_fresh hInv.2.2.2.2
  unfold allocPage
  dsimp only
  cases ha : allocBuf { s with files := fun n => if n = file then s.files file + 1 else s.files n } with
  | err e s' tr =>
    dsimp only [Res.state]
    have hstate := Inv_allocBuf _ hInv1
    rw [ha] at hstate
    exact hstate
  | ok f s' tr =>
    obtain ⟨hInv', hfn, hnum, hfiles, hvalid, hnone, _⟩ := allocBuf_ok_facts hInv1 ha
    dsimp only [Res.state]
    refine Inv_insertFrame hInv' ?_ hvalid (hnone _ hfreshTop) ?_
    · simp only at hnum hfn
      omega
    · rw [hfiles]
      simp

theorem Inv_disposePage (s : BufState) (file pageNo : Nat) (hInv : Inv s) :
    Inv (disposePage s file pageNo).state := by
  unfold disposePage
  cases hl : tableLookup s.table (file, pageNo) with
  | none => exact hInv
  | some f =>
    dsimp only [Res.state]
    have hmem := tableLookup_eq_some hl
    obtain ⟨h1, h2, h3, h4⟩ := hInv.2.2.2.1 _ hmem
    have := Inv_clearFrame hInv h2
    rw [h3, h4] at this
    simpa using this

theorem Inv_flushFileGo (file : Nat) :
    ∀ (L : List Nat) (s : BufState) (tr : List Ev), Inv s →
      Inv (flushFileGo file L s tr).state := by
  intro L
  induction L with
  | nil => intro s tr hInv; exact hInv
  | cons i rest ih =>
    intro s tr hInv
    unfold flushFileGo
    dsimp only
    by_cases hmatch : (s.descs.getD i default).file = some file
    · rw [if_pos hmatch]
      by_cases hp : (s.descs.getD i default).pinCnt ≠ 0
      · rw [if_pos hp]
        exact hInv
      rw [if_neg hp]
      by_cases hv : (s.descs.getD i default).valid = false
      · rw [if_pos hv]
        exact hInv
      rw [if_neg hv]
      refine ih _ _ ?_
      have hvt : (s.descs.getD i default).valid = true := by simpa using hv
      have := Inv_clearFrame hInv hvt
      rw [hmatch] at this
      simpa using this
    · rw [if_neg hmatch]
      exact ih _ _ hInv

theorem Inv_flushFile (s : BufState) (file : Nat) (hInv : Inv s) :
    Inv (flushFile s file).state :=
  Inv_flushFileGo file (List.range s.numBufs) s [] hInv

instance (s : BufState) : Decidable (Inv s) := by
  unfold Inv
  infer_instance

/-! ### Claim theorems -/

/-- C1: the constructor establishes `Inv`, every public operation
(`readPage`, `unPinPage`, `allocPage`, `disposePage`, `flushFile`)
preserves `Inv` — which states that every valid frame is mapped by the
page table to its own frame number under its `(file, pageNo)` identity and
that every page-table entry targets a valid frame with matching
identity — and `Inv` implies that no two distinct valid frames hold the
same `(file, pageNo)`. -/
theorem c1_pagetable_agreement :
    (∀ bufs files, 0 < bufs → Inv (initState bufs files)) ∧
    (∀ s file pageNo, Inv s → Inv (readPage s file pageNo).state) ∧
    (∀ s file pageNo dirty, Inv s → Inv (unPinPage s file pageNo dirty).state) ∧
    (∀ s file, Inv s → Inv (allocPage s file).state) ∧
    (∀ s file pageNo, Inv s → Inv (disposePage s file pageNo).state) ∧
    (∀ s file, Inv s → Inv (flushFile s file).state) ∧
    (∀ s, Inv s → ∀ i j, i ≠ j →
      (s.descs.getD i default).valid = true → (s.descs.getD j default).valid = true →
      ¬((s.descs.getD i default).file = (s.descs.getD j default).file ∧
        (s.descs.getD i default).pageNo = (s.descs.getD j default).pageNo)) := by
  refine ⟨fun bufs files h => Inv_initState files h,
    fun s file pageNo h => Inv_readPage s file pageNo h,
    fun s file pageNo dirty h => Inv_unPinPage s file pageNo dirty h,
    fun s file h => Inv_allocPage s file h,
    fun s file pageNo h => Inv_disposePage s file pageNo h,
    fun s file h => Inv_flushFile s file h,
    ?_⟩
  rintro s hInv i j hij hvi hvj ⟨hfeq, hpeq⟩
  have hlen := hInv.2.1
  have hiL := lt_length_of_getD_valid
    (show ¬ (s.descs.getD i default).valid = false by rw [hvi]; simp)
  have hjL := lt_length_of_getD_valid
    (show ¬ (s.descs.getD j default).valid = false by rw [hvj]; simp)
  have hiN : i < s.numBufs := by omega
  have hjN : j < s.numBufs := by omega
  obtain ⟨hsi, hlooki⟩ := hInv.2.2.1 i hiN hvi
  obtain ⟨hsj, hlookj⟩ := hInv.2.2.1 j hjN hvj
  have hkeq :
      (((s.descs.getD i default).file.getD 0), (s.descs.getD i default).pageNo)
        = (((s.descs.getD j default).file.getD 0), (s.descs.getD j default).pageNo) := by
    rw [hfeq, hpeq]
  rw [hkeq, hlookj] at hlooki
  exact hij (by injection hlooki with h; exact h.symm)

/-- Closed-form instantiation of `c1_pagetable_agreement` on a concrete
two-frame pool: the invariant holds at construction and after a cold
`readPage`. -/
theorem c1_pagetable_agreement_witness :
    Inv (initState 2 (fun _ => 4)) ∧ Inv ((readPage (initState 2 (fun _ => 4)) 1 0).state) :=
  ⟨c1_pagetable_agreement.1 2 (fun _ => 4) (by decide),
   c1_pagetable_agreement.2.1 (initState 2 (fun _ => 4)) 1 0 (by decide)⟩

/-- C2: on a hit, `readPage` sets the frame's refbit, increments its pin
count, returns that frame, and performs no file I/O (empty trace, table
unchanged); on a miss it obtains a frame from `allocBuf`, reads the page
from the file, inserts `(file, pageNo) -> frameNo` into the table and
leaves the descriptor `Set`: `pinCnt = 1`, `refbit = true`,
`dirty = false`, `valid = true`. -/
theorem c2_readPage_hit_miss (s : BufState) (file pageNo : Nat) :
    (∀ f, tableLookup s.table (file, pageNo) = some f →
      readPage s file pageNo =
        .ok f
          { s with descs := s.descs.set f
                      ({ file := (s.descs.getD f default).file
                         pageNo := (s.descs.getD f default).pageNo
                         pinCnt := (s.descs.getD f default).pinCnt + 1
                         dirty := (s.descs.getD f default).dirty
                         refbit := true
                         valid := (s.descs.getD f default).valid }) }
          []) ∧
    (∀ f s' tr, tableLookup s.table (file, pageNo) = none →
      allocBuf s = .ok f s' tr → pageNo < s'.files file →
      readPage s file pageNo =
        .ok f
          { s' with
            table := ((file, pageNo), f) :: s'.table
            descs := s'.descs.set f
                      ({ file := some file, pageNo := pageNo, pinCnt := 1,
                         dirty := false, refbit := true, valid := true }) }
          (tr ++ [Ev.fileRead file pageNo])) := by
  constructor
  · intro f hl
    unfold readPage
    rw [hl]
  · intro f s' tr hl ha hrd
    unfold readPage
    rw [hl]
    dsimp only
    rw [ha]
    dsimp only
    rw [if_pos hrd]
    rfl

/-- Concrete instantiation of `c2_readPage_hit_miss`: a hit on a one-frame
pool bumps the pin count with no I/O, and a cold miss produces a read of
the requested page and a freshly `Set` descriptor. -/
theorem c2_readPage_hit_miss_witness :
    readPage ⟨1, [⟨some 1, 5, 1, false, false, true⟩], [((1, 5), 0)], 0, fun _ => 6⟩ 1 5 =
      .ok 0 ⟨1, [⟨some 1, 5, 2, false, true, true⟩], [((1, 5), 0)], 0, fun _ => 6⟩ [] ∧
    readPage ⟨1, [BufDesc.clearDesc], [], 0, fun _ => 6⟩ 1 3 =
      .ok 0 ⟨1, [⟨some 1, 3, 1, false, true, true⟩], [((1, 3), 0)], 0, fun _ => 6⟩
        [Ev.clearEv 0, Ev.fileRead 1 3] :=
  ⟨(c2_readPage_hit_miss ⟨1, [⟨some 1, 5, 1, false, false, true⟩], [((1, 5), 0)], 0,
      fun _ => 6⟩ 1 5).1 0 rfl,
   (c2_readPage_hit_miss ⟨1, [BufDesc.clearDesc], [], 0, fun _ => 6⟩ 1 3).2 0
      ⟨1, [BufDesc.clearDesc], [], 0, fun _ => 6⟩ [Ev.clearEv 0] rfl rfl (by decide)⟩

/-- C8: `unPinPage` on an absent page is a silent no-op; on a resident page
with `pinCnt = 0` it raises `PageNotPinned`; otherwise it decrements the
pin count by exactly one (and ors in the dirty flag). -/
theorem c8_unPinPage_behavior (s : BufState) (file pageNo : Nat) (dirty : Bool) :
    (tableLookup s.table (file, pageNo) = none →
      unPinPage s file pageNo dirty = .ok () s []) ∧
    (∀ f, tableLookup s.table (file, pageNo) = some f →
      (s.descs.getD f default).pinCnt = 0 →
      unPinPage s file pageNo dirty = .err .pageNotPinned s []) ∧
    (∀ f, tableLookup s.table (file, pageNo) = some f →
      (s.descs.getD f default).pinCnt ≠ 0 →
      unPinPage s file pageNo dirty =
        .ok ()
          { s with descs := s.descs.set f
                      ({ file := (s.descs.getD f default).file
                         pageNo := (s.descs.getD f default).pageNo
                         pinCnt := (s.descs.getD f default).pinCnt - 1
                         dirty := (s.descs.getD f default).dirty || dirty
                         refbit := (s.descs.getD f default).refbit
                         valid := (s.descs.getD f default).valid }) }
          []) := by
  refine ⟨?_, ?_, ?_⟩
  · intro hl
    unfold unPinPage
    rw [hl]
  · intro f hl hp
    unfold unPinPage
    rw [hl]
    dsimp only
    rw [if_pos hp]
  · intro f hl hp
    unfold unPinPage
    rw [hl]
    dsimp only
    rw [if_neg hp]

/-- Concrete instantiation of `c8_unPinPage_behavior` on one-frame pools:
the no-op case, the `PageNotPinned` case, and the decrement case. -/
theorem c8_unPinPage_behavior_witness :
    unPinPage ⟨1, [BufDesc.clearDesc], [], 0, fun _ => 6⟩ 1 5 false =
      .ok () ⟨1, [BufDesc.clearDesc], [], 0, fun _ => 6⟩ [] ∧
    unPinPage ⟨1, [⟨some 1, 5, 0, false, false, true⟩], [((1, 5), 0)], 0, fun _ => 6⟩ 1 5 false =
      .err .pageNotPinned
        ⟨1, [⟨some 1, 5, 0, false, false, true⟩], [((1, 5), 0)], 0, fun _ => 6⟩ [] ∧
    unPinPage ⟨1, [⟨some 1, 5, 2, false, false, true⟩], [((1, 5), 0)], 0, fun _ => 6⟩ 1 5 true =
      .ok () ⟨1, [⟨some 1, 5, 1, true, false, true⟩], [((1, 5), 0)], 0, fun _ => 6⟩ [] :=
  ⟨(c8_unPinPage_behavior ⟨1, [BufDesc.clearDesc], [], 0, fun _ => 6⟩ 1 5 false).1 rfl,
   (c8_unPinPage_behavior ⟨1, [⟨some 1, 5, 0, false, false, true⟩], [((1, 5), 0)], 0,
      fun _ => 6⟩ 1 5 false).2.1 0 rfl rfl,
   (c8_unPinPage_behavior ⟨1, [⟨some 1, 5, 2, false, false, true⟩], [((1, 5), 0)], 0,
      fun _ => 6⟩ 1 5 true).2.2 0 rfl (by decide)⟩

theorem allocBuf_err_facts {s : BufState} {e : BufError} {s' : BufState} {tr : List Ev}
    (h : allocBuf s = .err e s' tr) :
    e = .bufferExceeded ∧ tr = [] ∧ s'.table = s.table ∧ s'.numBufs = s.numBufs ∧
    s'.files = s.files ∧ s'.descs.length = s.descs.length ∧
    descsSameExceptRefbit s.descs s'.descs := by
  have hds := allocBufLoop_descs_sameExceptRefbit s.numBufs (2 * s.numBufs + 1)
    s.descs s.clockHand 0
  unfold allocBuf at h
  cases hr : allocBufLoop s.numBufs s.descs s.clockHand 0 (2 * s.numBufs + 1) with
  | exceeded ds hh =>
    rw [hr] at h hds
    simp only [SweepRes.descsOf] at hds
    injection h with h1 h2 h3
    refine ⟨h1.symm, h3.symm, by rw [← h2], by rw [← h2], by rw [← h2], ?_, by rw [← h2]; exact hds⟩
    rw [← h2]
    exact hds.1
  | noFuel ds hh =>
    rw [hr] at h hds
    simp only [SweepRes.descsOf] at hds
    injection h with h1 h2 h3
    refine ⟨h1.symm, h3.symm, by rw [← h2], by rw [← h2], by rw [← h2], ?_, by rw [← h2]; exact hds⟩
    rw [← h2]
    exact hds.1
  | select ds hh =>
    rw [hr] at h
    dsimp only at h
    by_cases hv : (ds.getD hh default).valid = true
    · rw [if_pos hv] at h
      cases h
    · rw [if_neg hv] at h
      cases h

theorem allocBuf_ok_other_frames {s : BufState} {f : Nat} {s' : BufState} {tr : List Ev}
    (h : allocBuf s = .ok f s' tr) :
    ∀ i, i ≠ f → sameExceptRefbit (s.descs.getD i default) (s'.descs.getD i default) := by
  have hds := allocBufLoop_descs_sameExceptRefbit s.numBufs (2 * s.numBufs + 1)
    s.descs s.clockHand 0
  unfold allocBuf at h
  cases hr : allocBufLoop s.numBufs s.descs s.clockHand 0 (2 * s.numBufs + 1) with
  | exceeded ds hh => rw [hr] at h; cases h
  | noFuel ds hh => rw [hr] at h; cases h
  | select ds hh =>
    rw [hr] at h hds
    simp only [SweepRes.descsOf] at hds
    dsimp only at h
    by_cases hv : (ds.getD hh default).valid = true
    · rw [if_pos hv] at h
      injection h with h1 h2 h3
      subst h1
      intro i hif
      rw [← h2]
      dsimp only
      rw [getD_set_ne (fun he => hif he.symm)]
      exact hds.2 i
    · rw [if_neg hv] at h
      injection h with h1 h2 h3
      subst h1
      intro i hif
      rw [← h2]
      dsimp only
      rw [getD_set_ne (fun he => hif he.symm)]
      exact hds.2 i

/-- C3 as written is refuted: with every frame valid and pinned, a
`readPage` of a non-resident page does raise `BufferExceeded`, but the
sweep's refbit clearing persists. On a one-frame pool whose only frame is
valid, pinned and has its refbit set, the failing `readPage` leaves the
refbit cleared, so the descriptor state differs from the pre-call state. -/
theorem c3_counterexample :
    ((⟨1, [⟨some 1, 1, 1, false, true, true⟩], [((1, 1), 0)], 0, fun _ => 2⟩ :
        BufState).descs.getD 0 default).valid = true ∧
    ((⟨1, [⟨some 1, 1, 1, false, true, true⟩], [((1, 1), 0)], 0, fun _ => 2⟩ :
        BufState).descs.getD 0 default).pinCnt ≠ 0 ∧
    tableLookup [((1, 1), 0)] (1, 4) = none ∧
    readPage ⟨1, [⟨some 1, 1, 1, false, true, true⟩], [((1, 1), 0)], 0, fun _ => 2⟩ 1 4 =
      .err .bufferExceeded
        ⟨1, [⟨some 1, 1, 1, false, false, true⟩], [((1, 1), 0)], 0, fun _ => 2⟩ [] ∧
    ((⟨some 1, 1, 1, false, true, true⟩ : BufDesc) ≠ ⟨some 1, 1, 1, false, false, true⟩) := by
  refine ⟨by decide, by decide, by decide, rfl, by decide⟩

/-- C3 amended: when all `numBufs` frames are valid and pinned, `readPage`
of a non-resident page raises `BufferExceeded` with no file I/O, and the
page table, the frame count, the file counters, and every descriptor field
other than the refbit are unchanged; the refbits (and the clock hand) may
have been changed by the sweep. -/
theorem c3_bufferExceeded_amended (s : BufState) (file pageNo : Nat)
    (hn : 0 < s.numBufs) (hlen : s.descs.length = s.numBufs)
    (hall : ∀ i, i < s.numBufs →
      (s.descs.getD i default).valid = true ∧ (s.descs.getD i default).pinCnt ≠ 0)
    (hmiss : tableLookup s.table (file, pageNo) = none) :
    ∃ s', readPage s file pageNo = .err .bufferExceeded s' [] ∧
      s'.table = s.table ∧ s'.numBufs = s.numBufs ∧ s'.files = s.files ∧
      descsSameExceptRefbit s.descs s'.descs := by
  have hds := allocBufLoop_descs_sameExceptRefbit s.numBufs (2 * s.numBufs + 1)
    s.descs s.clockHand 0
  cases hr : allocBufLoop s.numBufs s.descs s.clockHand 0 (2 * s.numBufs + 1) with
  | select ds hh =>
    exact absurd hr (allocBufLoop_no_select_of_allPinned s.numBufs hn _ _ _ _ hall ds hh)
  | noFuel ds hh =>
    exfalso
    refine allocBufLoop_not_noFuel s.numBufs _ _ _ _ hn ?_ ds hh hr
    have hcnt : countRef s.descs ≤ s.descs.length := List.countP_le_length _
    omega
  | exceeded ds hh =>
    rw [hr] at hds
    simp only [SweepRes.descsOf] at hds
    have ha : allocBuf s =
        .err .bufferExceeded { s with descs := ds, clockHand := hh } [] := by
      unfold allocBuf
      rw [hr]
    refine ⟨{ s with descs := ds, clockHand := hh }, ?_, rfl, rfl, rfl, hds⟩
    unfold readPage
    rw [hmiss]
    dsimp only
    rw [ha]

/-- Concrete instantiation of `c3_bufferExceeded_amended` on a one-frame
pool holding a pinned page. -/
theorem c3_bufferExceeded_amended_witness :
    ∃ s', readPage ⟨1, [⟨some 1, 1, 1, false, true, true⟩], [((1, 1), 0)], 0, fun _ => 2⟩ 1 4 =
        .err .bufferExceeded s' [] ∧
      s'.table = [((1, 1), 0)] ∧ s'.numBufs = 1 ∧
      s'.files = (fun _ => 2) ∧
      descsSameExceptRefbit [⟨some 1, 1, 1, false, true, true⟩] s'.descs :=
  c3_bufferExceeded_amended
    ⟨1, [⟨some 1, 1, 1, false, true, true⟩], [((1, 1), 0)], 0, fun _ => 2⟩ 1 4
    (by decide) (by decide) (by decide) (by decide)

/-- C4: the sweep always terminates within its fuel `2 * numBufs + 1`
(first conjunct: the fuel case is never reached), an all-pinned pool makes
`allocBuf` raise `BufferExceeded` instead of looping forever (second
conjunct), clearing a set refbit recurses with the local `pinnedCnt`
unchanged (third conjunct), and a valid, refbit-clear, pinned frame that
brings `pinnedCnt` up to `numBufs` triggers the failure (fourth
conjunct). -/
theorem c4_allocBuf_terminates :
    (∀ s : BufState, 0 < s.numBufs → s.descs.length = s.numBufs →
      ∀ ds h, allocBufLoop s.numBufs s.descs s.clockHand 0 (2 * s.numBufs + 1) ≠
        .noFuel ds h) ∧
    (∀ s : BufState, 0 < s.numBufs → s.descs.length = s.numBufs →
      (∀ i, i < s.numBufs →
        (s.descs.getD i default).valid = true ∧ (s.descs.getD i default).pinCnt ≠ 0) →
      ∃ s', allocBuf s = .err .bufferExceeded s' []) ∧
    (∀ n (descs : List BufDesc) hand pc fuel,
      (descs.getD ((hand + 1) % n) default).valid = true →
      (descs.getD ((hand + 1) % n) default).refbit = true →
      allocBufLoop n descs hand pc (fuel + 1) =
        allocBufLoop n
          (descs.set ((hand + 1) % n)
            { descs.getD ((hand + 1) % n) default with refbit := false })
          ((hand + 1) % n) pc fuel) ∧
    (∀ n (descs : List BufDesc) hand pc fuel,
      (descs.getD ((hand + 1) % n) default).valid = true →
      (descs.getD ((hand + 1) % n) default).refbit = false →
      (descs.getD ((hand + 1) % n) default).pinCnt ≠ 0 →
      pc + 1 = n →
      allocBufLoop n descs hand pc (fuel + 1) = .exceeded descs ((hand + 1) % n)) := by
  refine ⟨?_, ?_, ?_, ?_⟩
  · intro s hn hlen ds h
    refine allocBufLoop_not_noFuel s.numBufs _ _ _ _ hn ?_ ds h
    have hcnt : countRef s.descs ≤ s.descs.length := List.countP_le_length _
    omega
  · intro s hn hlen hall
    cases hr : allocBufLoop s.numBufs s.descs s.clockHand 0 (2 * s.numBufs + 1) with
    | select ds hh =>
      exact absurd hr (allocBufLoop_no_select_of_allPinned s.numBufs hn _ _ _ _ hall ds hh)
    | noFuel ds hh =>
      exfalso
      refine allocBufLoop_not_noFuel s.numBufs _ _ _ _ hn ?_ ds hh hr
      have hcnt : countRef s.descs ≤ s.descs.length := List.countP_le_length _
      omega
    | exceeded ds hh =>
      refine ⟨{ s with descs := ds, clockHand := hh }, ?_⟩
      unfold allocBuf
      rw [hr]
  · intro n descs hand pc fuel hv hr
    rw [allocBufLoop_succ]
    rw [if_neg (by rw [hv]; simp), if_pos hr]
  · intro n descs hand pc fuel hv hr hp hc
    rw [allocBufLoop_succ]
    rw [if_neg (by rw [hv]; simp), if_neg (by rw [hr]; simp), if_pos hp, if_pos hc]

/-- Concrete instantiation of `c4_allocBuf_terminates` on a one-frame pool
with a pinned frame: the sweep does not run out of fuel and `allocBuf`
fails with `BufferExceeded`; a refbit-set frame is revisited with
`pinnedCnt` unchanged; and the `numBufs`-th pinned visit fails. -/
theorem c4_allocBuf_terminates_witness :
    (∀ ds h,
      allocBufLoop 1 [⟨some 1, 5, 1, false, false, true⟩] 0 0 3 ≠ SweepRes.noFuel ds h) ∧
    (∃ s', allocBuf ⟨1, [⟨some 1, 5, 1, false, false, true⟩], [((1, 5), 0)], 0, fun _ => 6⟩ =
      .err .bufferExceeded s' []) ∧
    allocBufLoop 1 [⟨some 1, 5, 1, false, true, true⟩] 0 0 3 =
      allocBufLoop 1 [⟨some 1, 5, 1, false, false, true⟩] 0 0 2 ∧
    allocBufLoop 1 [⟨some 1, 5, 1, false, false, true⟩] 0 0 3 =
      SweepRes.exceeded [⟨some 1, 5, 1, false, false, true⟩] 0 := by
  refine ⟨?_, ?_, ?_, ?_⟩
  · exact c4_allocBuf_terminates.1
      ⟨1, [⟨some 1, 5, 1, false, false, true⟩], [((1, 5), 0)], 0, fun _ => 6⟩
      (by decide) (by decide)
  · exact c4_allocBuf_terminates.2.1
      ⟨1, [⟨some 1, 5, 1, false, false, true⟩], [((1, 5), 0)], 0, fun _ => 6⟩
      (by decide) (by decide) (by decide)
  · exact c4_allocBuf_terminates.2.2.1 1 [⟨some 1, 5, 1, false, true, true⟩] 0 0 2
      (by decide) (by decide)
  · exact c4_allocBuf_terminates.2.2.2 1 [⟨some 1, 5, 1, false, false, true⟩] 0 0 2
      (by decide) (by decide) (by decide) (by decide)

/-- C5: when the sweep selects a valid victim, `allocBuf` first issues a
`writePage` for the resident page exactly when the dirty bit is set (and
exactly once), then removes the `(file, pageNo)` page-table entry, then
clears the descriptor, and returns the final clock-hand position as the
chosen frame. -/
theorem c5_eviction_writeback (s : BufState) (ds : List BufDesc) (h : Nat)
    (hsel : allocBufLoop s.numBufs s.descs s.clockHand 0 (2 * s.numBufs + 1) = .select ds h)
    (hv : (ds.getD h default).valid = true) :
    allocBuf s =
      .ok h
        { s with
          descs := ds.set h BufDesc.clearDesc
          table := tableRemove s.table
            ((ds.getD h default).file.getD 0, (ds.getD h default).pageNo)
          clockHand := h }
        ((if (ds.getD h default).dirty = true
            then [Ev.fileWrite ((ds.getD h default).file.getD 0) (ds.getD h default).pageNo]
            else []) ++ [Ev.clearEv h]) ∧
    (allocBuf s).trace.count
        (Ev.fileWrite ((ds.getD h default).file.getD 0) (ds.getD h default).pageNo)
      = (if (ds.getD h default).dirty = true then 1 else 0) ∧
    (allocBuf s).state.clockHand = h := by
  have ha : allocBuf s =
      .ok h
        { s with
          descs := ds.set h BufDesc.clearDesc
          table := tableRemove s.table
            ((ds.getD h default).file.getD 0, (ds.getD h default).pageNo)
          clockHand := h }
        ((if (ds.getD h default).dirty = true
            then [Ev.fileWrite ((ds.getD h default).file.getD 0) (ds.getD h default).pageNo]
            else []) ++ [Ev.clearEv h]) := by
    unfold allocBuf
    rw [hsel]
    dsimp only
    rw [if_pos hv]
  refine ⟨ha, ?_, ?_⟩
  · rw [ha]
    dsimp only [Res.trace]
    by_cases hd : (ds.getD h default).dirty = true
    · rw [if_pos hd, if_pos hd]
      simp
    · rw [if_neg hd, if_neg hd]
      simp
  · rw [ha]
    rfl

/-- Concrete instantiation of `c5_eviction_writeback` on a one-frame pool
holding an unpinned dirty page: eviction produces exactly one `writePage`,
removes the entry, clears the frame, and returns the hand position. -/
theorem c5_eviction_writeback_witness :
    allocBuf ⟨1, [⟨some 1, 5, 0, true, false, true⟩], [((1, 5), 0)], 0, fun _ => 6⟩ =
      .ok 0 ⟨1, [BufDesc.clearDesc], [], 0, fun _ => 6⟩
        [Ev.fileWrite 1 5, Ev.clearEv 0] ∧
    (allocBuf ⟨1, [⟨some 1, 5, 0, true, false, true⟩], [((1, 5), 0)], 0,
        fun _ => 6⟩).trace.count (Ev.fileWrite 1 5) = 1 := by
  have hmain := c5_eviction_writeback
    ⟨1, [⟨some 1, 5, 0, true, false, true⟩], [((1, 5), 0)], 0, fun _ => 6⟩
    [⟨some 1, 5, 0, true, false, true⟩] 0 rfl (by decide)
  exact ⟨hmain.1, hmain.2.1⟩

/-! ### Dirty stickiness machinery (claim C7) -/

theorem allocBuf_ok_clearEv {s : BufState} {f : Nat} {s' : BufState} {tr : List Ev}
    (h : allocBuf s = .ok f s' tr) : Ev.clearEv f ∈ tr := by
  unfold allocBuf at h
  cases hr : allocBufLoop s.numBufs s.descs s.clockHand 0 (2 * s.numBufs + 1) with
  | exceeded ds hh => rw [hr] at h; cases h
  | noFuel ds hh => rw [hr] at h; cases h
  | select ds hh =>
    rw [hr] at h
    dsimp only at h
    by_cases hv : (ds.getD hh default).valid = true
    · rw [if_pos hv] at h
      injection h with h1 h2 h3
      subst h1
      rw [← h3]
      exact List.mem_append_right _ (by simp)
    · rw [if_neg hv] at h
      injection h with h1 h2 h3
      subst h1
      rw [← h3]
      simp

theorem getD_set_dirty_preserved {l : List BufDesc} {f i : Nat} {d' : BufDesc}
    (hd : (l.getD i default).dirty = true)
    (hpres : (l.getD f default).dirty = true → d'.dirty = true) :
    ((l.set f d').getD i default).dirty = true := by
  by_cases hif : f = i
  · subst hif
    by_cases hfl : f < l.length
    · rw [getD_set_self hfl]
      exact hpres hd
    · rw [List.set_eq_of_length_le (by omega)]
      exact hd
  · rw [getD_set_ne hif]
    exact hd

/-- The operation language of the dirty-stickiness law: `readPage` and
`unpinPage` calls. -/
inductive COp where
  | readOp (file pageNo : Nat)
  | unpinOp (file pageNo : Nat) (dirty : Bool)
  deriving Repr, DecidableEq

/-- Apply one operation; an error keeps the state mutated so far, like the
C++ exceptions do. -/
def applyOp (s : BufState) : COp → BufState × List Ev
  | .readOp file pageNo => ((readPage s file pageNo).state, (readPage s file pageNo).trace)
  | .unpinOp file pageNo dirty =>
      ((unPinPage s file pageNo dirty).state, (unPinPage s file pageNo dirty).trace)

/-- Run a sequence of operations, concatenating the event traces. -/
def runOps : BufState → List COp → BufState × List Ev
  | s, [] => (s, [])
  | s, o :: os =>
      ((runOps (applyOp s o).1 os).1, (applyOp s o).2 ++ (runOps (applyOp s o).1 os).2)

theorem dirty_sticky_step (s : BufState) (o : COp) (i : Nat)
    (hd : (s.descs.getD i default).dirty = true)
    (hnc : Ev.clearEv i ∉ (applyOp s o).2) :
    ((applyOp s o).1.descs.getD i default).dirty = true := by
  cases o with
  | readOp file pageNo =>
    dsimp only [applyOp] at hnc ⊢
    cases hl : tableLookup s.table (file, pageNo) with
    | some f =>
      unfold readPage
      rw [hl]
      dsimp only [Res.state]
      exact getD_set_dirty_preserved hd (fun h => h)
    | none =>
      unfold readPage at hnc ⊢
      rw [hl] at hnc ⊢
      dsimp only at hnc ⊢
      cases ha : allocBuf s with
      | err e s' tr =>
        dsimp only [Res.state]
        obtain ⟨-, -, -, -, -, -, hds⟩ := allocBuf_err_facts ha
        obtain ⟨-, -, -, hdirty, -⟩ := hds.2 i
        rw [hdirty]
        exact hd
      | ok f s' tr =>
        dsimp only at hnc ⊢
        have hif : i ≠ f := by
          intro hif
          subst hif
          have hmem := allocBuf_ok_clearEv ha
          rw [ha] at hnc
          dsimp only at hnc
          by_cases hrd : pageNo < s'.files file
          · rw [if_pos hrd] at hnc
            dsimp only [Res.trace] at hnc
            exact hnc (List.mem_append_left _ hmem)
          · rw [if_neg hrd] at hnc
            dsimp only [Res.trace] at hnc
            exact hnc (List.mem_append_left _ hmem)
        have hother := allocBuf_ok_other_frames ha i hif
        obtain ⟨-, -, -, hdirty, -⟩ := hother
        by_cases hrd : pageNo < s'.files file
        · rw [if_pos hrd]
          dsimp only [Res.state]
          rw [getD_set_ne (fun he => hif he.symm), hdirty]
          exact hd
        · rw [if_neg hrd]
          dsimp only [Res.state]
          rw [hdirty]
          exact hd
  | unpinOp file pageNo dirty =>
    dsimp only [applyOp]
    cases hl : tableLookup s.table (file, pageNo) with
    | none =>
      unfold unPinPage
      rw [hl]
      dsimp only [Res.state]
      exact hd
    | some f =>
      unfold unPinPage
      rw [hl]
      dsimp only
      by_cases hp : (s.descs.getD f default).pinCnt = 0
      · rw [if_pos hp]
        exact hd
      · rw [if_neg hp]
        dsimp only [Res.state]
        refine getD_set_dirty_preserved hd ?_
        intro h
        dsimp only
        rw [h]
        simp

/-- Holds of operations allowed by the dirty-stickiness law: any
`readPage`, and `unpinPage` only with `dirty = false`. -/
def COp.unpinsClean : COp → Prop
  | .readOp _ _ => True
  | .unpinOp _ _ d => d = false

instance : DecidablePred COp.unpinsClean := fun o => by
  cases o <;> dsimp only [COp.unpinsClean] <;> infer_instance

theorem dirty_sticky_run (ops : List COp) :
    ∀ (s : BufState) (i : Nat), (s.descs.getD i default).dirty = true →
      Ev.clearEv i ∉ (runOps s ops).2 →
      ((runOps s ops).1.descs.getD i default).dirty = true := by
  induction ops with
  | nil => intro s i hd _; exact hd
  | cons o os ih =>
    intro s i hd hnc
    dsimp only [runOps] at hnc ⊢
    rw [List.mem_append] at hnc
    push_neg at hnc
    exact ih _ i (dirty_sticky_step s o i hd hnc.1) hnc.2

/-- C7: once a frame's dirty bit is `true`, it remains `true` under every
subsequent sequence of `readPage` and `unpinPage(..., dirty = false)`
calls in which that descriptor is not `Clear`ed (no `clearEv i` in the
trace). -/
theorem c7_dirty_sticky (s : BufState) (ops : List COp) (i : Nat)
    (hd : (s.descs.getD i default).dirty = true)
    (_hops : ∀ o ∈ ops, COp.unpinsClean o)
    (hnc : Ev.clearEv i ∉ (runOps s ops).2) :
    ((runOps s ops).1.descs.getD i default).dirty = true :=
  dirty_sticky_run ops s i hd hnc

/-- Concrete instantiation of `c7_dirty_sticky`: a dirtied pinned frame
survives a `readPage` hit and two clean unpins with its dirty bit intact. -/
theorem c7_dirty_sticky_witness :
    ((runOps ⟨1, [⟨some 1, 5, 1, true, false, true⟩], [((1, 5), 0)], 0, fun _ => 6⟩
        [COp.readOp 1 5, COp.unpinOp 1 5 false, COp.unpinOp 1 5 false]).1.descs.getD 0
        default).dirty = true :=
  c7_dirty_sticky ⟨1, [⟨some 1, 5, 1, true, false, true⟩], [((1, 5), 0)], 0, fun _ => 6⟩
    [COp.readOp 1 5, COp.unpinOp 1 5 false, COp.unpinOp 1 5 false] 0
    (by decide) (by decide) (by decide)

theorem allocBuf_ok_of_select (s : BufState) {ds : List BufDesc} {h : Nat}
    (hsel : allocBufLoop s.numBufs s.descs s.clockHand 0 (2 * s.numBufs + 1) = .select ds h) :
    ∃ s' tr, allocBuf s = .ok h s' tr := by
  unfold allocBuf
  rw [hsel]
  dsimp only
  by_cases hv : (ds.getD h default).valid = true
  · rw [if_pos hv]
    exact ⟨_, _, rfl⟩
  · rw [if_neg hv]
    exact ⟨_, _, rfl⟩

/-- C9: `disposePage` on a resident page clears the descriptor, removes the
page-table entry, and issues exactly one `deletePage` — the pin count is
never examined (the theorem holds for any `pinCnt`) — and a subsequent
`readPage` of the same page misses in the page table and issues a fresh
`File::readPage` call. -/
theorem c9_disposePage_resident (s : BufState) (file pageNo f : Nat)
    (hInv : Inv s)
    (hl : tableLookup s.table (file, pageNo) = some f) :
    disposePage s file pageNo =
      .ok ()
        { s with
          descs := s.descs.set f BufDesc.clearDesc
          table := tableRemove s.table (file, pageNo) }
        [Ev.clearEv f, Ev.fileDelete file pageNo] ∧
    ([Ev.clearEv f, Ev.fileDelete file pageNo].count (Ev.fileDelete file pageNo) = 1) ∧
    tableLookup ((disposePage s file pageNo).state.table) (file, pageNo) = none ∧
    Ev.fileRead file pageNo ∈
      (readPage (disposePage s file pageNo).state file pageNo).trace := by
  have hdisp : disposePage s file pageNo =
      .ok ()
        { s with
          descs := s.descs.set f BufDesc.clearDesc
          table := tableRemove s.table (file, pageNo) }
        [Ev.clearEv f, Ev.fileDelete file pageNo] := by
    unfold disposePage
    rw [hl]
  have hn : 0 < s.numBufs := hInv.1
  obtain ⟨hfn, -, -, -⟩ := hInv.2.2.2.1 _ (tableLookup_eq_some hl)
  have hlen : s.descs.length = s.numBufs := hInv.2.1
  have hflen : f < s.descs.length := by omega
  refine ⟨hdisp, ?_, ?_, ?_⟩
  · simp [List.count_cons]
  · rw [hdisp]
    exact tableLookup_remove_self
  · rw [hdisp]
    dsimp only [Res.state]
    have hdist :
        (s.clockHand + 1 + (f + s.numBufs - (s.clockHand + 1) % s.numBufs) % s.numBufs)
          % s.numBufs = f := by
      rw [← Nat.mod_add_mod, Nat.add_mod_mod,
        Nat.add_sub_cancel' (by have := Nat.mod_lt (s.clockHand + 1) hn; omega),
        Nat.add_mod_right]
      exact Nat.mod_eq_of_lt (by omega)
    have hdlt : (f + s.numBufs - (s.clockHand + 1) % s.numBufs) % s.numBufs < s.numBufs :=
      Nat.mod_lt _ hn
    obtain ⟨ds, h', hsel⟩ :=
      allocBufLoop_select_of_invalid s.numBufs
        ((f + s.numBufs - (s.clockHand + 1) % s.numBufs) % s.numBufs)
        (2 * s.numBufs + 1) (s.descs.set f BufDesc.clearDesc) s.clockHand 0
        (by rw [hdist, getD_set_self hflen]; rfl)
        (by omega) (by omega)
    obtain ⟨s2, tr2, ha⟩ := allocBuf_ok_of_select
      { s with
        descs := s.descs.set f BufDesc.clearDesc
        table := tableRemove s.table (file, pageNo) }
      hsel
    unfold readPage
    rw [show tableLookup
        ({ s with
            descs := s.descs.set f BufDesc.clearDesc
            table := tableRemove s.table (file, pageNo) } : BufState).table (file, pageNo)
        = none from tableLookup_remove_self]
    dsimp only
    rw [ha]
    dsimp only
    by_cases hrd : pageNo <
        s2.files file
    · rw [if_pos hrd]
      dsimp only [Res.trace]
      exact List.mem_append_right _ (by simp)
    · rw [if_neg hrd]
      dsimp only [Res.trace]
      exact List.mem_append_right _ (by simp)

/-- Concrete instantiation of `c9_disposePage_resident` on a one-frame pool
holding page 8 of file 1, still pinned: disposal clears the frame, removes
the entry, deletes the page once, and the next `readPage` re-reads it. -/
theorem c9_disposePage_resident_witness :
    disposePage ⟨1, [⟨some 1, 8, 1, false, false, true⟩], [((1, 8), 0)], 0, fun _ => 9⟩ 1 8 =
      .ok () ⟨1, [BufDesc.clearDesc], [], 0, fun _ => 9⟩
        [Ev.clearEv 0, Ev.fileDelete 1 8] ∧
    ([Ev.clearEv 0, Ev.fileDelete 1 8].count (Ev.fileDelete 1 8) = 1) ∧
    tableLookup ((disposePage ⟨1, [⟨some 1, 8, 1, false, false, true⟩], [((1, 8), 0)], 0,
        fun _ => 9⟩ 1 8).state.table) (1, 8) = none ∧
    Ev.fileRead 1 8 ∈
      (readPage (disposePage ⟨1, [⟨some 1, 8, 1, false, false, true⟩], [((1, 8), 0)], 0,
          fun _ => 9⟩ 1 8).state 1 8).trace :=
  c9_disposePage_resident
    ⟨1, [⟨some 1, 8, 1, false, false, true⟩], [((1, 8), 0)], 0, fun _ => 9⟩ 1 8 0
    (by decide) (by decide)

/-- C10: `allocPage` calls `File::allocatePage` before `allocBuf`, so when
`allocBuf` fails the only event is the allocation, the error is
`BufferExceeded`, the file's page counter has advanced, and yet the page
table and every descriptor identity are unchanged — no frame and no table
entry refers to the new page, whose number is not returned (the error
result carries no page number). -/
theorem c10_allocPage_orphan (s : BufState) (file : Nat) (hInv : Inv s)
    (e : BufError) (s' : BufState) (tr : List Ev)
    (h : allocPage s file = .err e s' tr) :
    e = .bufferExceeded ∧
    tr = [Ev.fileAlloc file (s.files file)] ∧
    s'.files file = s.files file + 1 ∧
    s'.table = s.table ∧
    descsSameExceptRefbit s.descs s'.descs ∧
    tableLookup s'.table (file, s.files file) = none ∧
    (∀ i, (s'.descs.getD i default).valid = true →
      ¬((s'.descs.getD i default).file = some file ∧
        (s'.descs.getD i default).pageNo = s.files file)) := by
  unfold allocPage at h
  dsimp only at h
  cases ha : allocBuf
      { s with files := fun n => if n = file then s.files file + 1 else s.files n } with
  | ok f s2 tr2 =>
    rw [ha] at h
    cases h
  | err e2 s2 tr2 =>
    rw [ha] at h
    injection h with h1 h2 h3
    obtain ⟨he2, htr2, htab, hnum, hfil, hdlen, hds⟩ := allocBuf_err_facts ha
    subst h1
    subst h2
    have hfresh : tableLookup s.table (file, s.files file) = none :=
      tableLookup_fresh hInv.2.2.2.2
    have htab' : s2.table = s.table := htab
    refine ⟨he2, ?_, ?_, htab', hds, ?_, ?_⟩
    · rw [← h3, htr2]
    · rw [hfil]
      simp
    · rw [htab']
      exact hfresh
    · intro i hv hcon
      obtain ⟨hfeq, hpeq, hceq, hdeq, hveq⟩ := hds.2 i
      have hvs : (s.descs.getD i default).valid = true := by rw [← hveq]; exact hv
      have hiL : i < s.descs.length := lt_length_of_getD_valid (by rw [hvs]; simp)
      have hiN : i < s.numBufs := by
        have := hInv.2.1
        omega
      obtain ⟨hsome, hlook⟩ := hInv.2.2.1 i hiN hvs
      have hkey : ((s.descs.getD i default).file.getD 0, (s.descs.getD i default).pageNo)
          = (file, s.files file) := by
        rw [← hfeq, ← hpeq, hcon.1, hcon.2]
        simp
      rw [hkey, hfresh] at hlook
      cases hlook

/-- Concrete instantiation of `c10_allocPage_orphan` on a fully pinned
one-frame pool: page 6 of file 1 is allocated in the file, `allocBuf`
fails, and nothing in the buffer manager refers to page 6. -/
theorem c10_allocPage_orphan_witness :
    allocPage ⟨1, [⟨some 1, 5, 1, false, false, true⟩], [((1, 5), 0)], 0, fun _ => 6⟩ 1 =
      .err .bufferExceeded
        ⟨1, [⟨some 1, 5, 1, false, false, true⟩], [((1, 5), 0)], 0,
          fun n => if n = 1 then 7 else 6⟩
        [Ev.fileAlloc 1 6] ∧
    tableLookup [((1, 5), 0)] (1, 6) = none ∧
    descsSameExceptRefbit [⟨some 1, 5, 1, false, false, true⟩]
      [⟨some 1, 5, 1, false, false, true⟩] := by
  have hmain := c10_allocPage_orphan
    ⟨1, [⟨some 1, 5, 1, false, false, true⟩], [((1, 5), 0)], 0, fun _ => 6⟩ 1
    (by decide)
    .bufferExceeded
    ⟨1, [⟨some 1, 5, 1, false, false, true⟩], [((1, 5), 0)], 0,
      fun n => if n = 1 then 7 else 6⟩
    [Ev.fileAlloc 1 6]
    rfl
  exact ⟨rfl, hmain.2.2.2.2.2.1, hmain.2.2.2.2.1⟩

/-! ### flushFile: per-frame scan with stop-on-failure (claim C6) -/

theorem lt_length_of_getD_file {descs : List BufDesc} {i file : Nat}
    (h : (descs.getD i default).file = some file) : i < descs.length := by
  by_contra hge
  push_neg at hge
  rw [List.getD_eq_default _ _ hge] at h
  simp [default, BufDesc.clearDesc] at h

theorem flushFileGo_char (file : Nat) :
    ∀ (L : List Nat) (s : BufState) (tr : List Ev), L.Nodup →
    ∃ P Q, L = P ++ Q ∧
      (∀ j ∈ P, (s.descs.getD j default).file = some file →
        (s.descs.getD j default).pinCnt = 0 ∧
        (s.descs.getD j default).valid = true ∧
        (flushFileGo file L s tr).state.descs.getD j default = BufDesc.clearDesc ∧
        Ev.clearEv j ∈ (flushFileGo file L s tr).trace ∧
        ((s.descs.getD j default).dirty = true →
          Ev.fileWrite file (s.descs.getD j default).pageNo ∈ (flushFileGo file L s tr).trace) ∧
        tableLookup (flushFileGo file L s tr).state.table
          (file, (s.descs.getD j default).pageNo) = none) ∧
      (∀ j, (j ∉ P ∨ ¬ (s.descs.getD j default).file = some file) →
        (flushFileGo file L s tr).state.descs.getD j default = s.descs.getD j default) ∧
      (∀ u s' tr', flushFileGo file L s tr = .ok u s' tr' → Q = []) ∧
      (∀ e s' tr', flushFileGo file L s tr = .err e s' tr' →
        ∃ q Q', Q = q :: Q' ∧ (s.descs.getD q default).file = some file ∧
          ((s.descs.getD q default).pinCnt ≠ 0 → e = .pagePinned) ∧
          ((s.descs.getD q default).pinCnt = 0 → e = .badBuffer ∧
            (s.descs.getD q default).valid = false)) ∧
      (∃ δ, (flushFileGo file L s tr).trace = tr ++ δ ∧
        ∀ ev ∈ δ,
          (∃ j ∈ P, (s.descs.getD j default).file = some file ∧ ev = Ev.clearEv j) ∨
          (∃ j ∈ P, (s.descs.getD j default).file = some file ∧
            (s.descs.getD j default).dirty = true ∧
            ev = Ev.fileWrite file (s.descs.getD j default).pageNo)) ∧
      (∀ kk, tableLookup s.table kk = none →
        tableLookup (flushFileGo file L s tr).state.table kk = none) := by
  intro L
  induction L with
  | nil =>
    intro s tr _
    refine ⟨[], [], rfl, ?_, ?_, ?_, ?_, ⟨[], by simp [flushFileGo, Res.trace], ?_⟩, ?_⟩
    · intro j hj; cases hj
    · intro j _; rfl
    · intro u s' tr' _; rfl
    · intro e s' tr' h; cases h
    · intro ev hev; cases hev
    · intro kk hkk; exact hkk
  | cons i rest ih =>
    intro s tr hnodup
    have hind : i ∉ rest := (List.nodup_cons.mp hnodup).1
    have hnd' : rest.Nodup := (List.nodup_cons.mp hnodup).2
    by_cases hm : (s.descs.getD i default).file = some file
    · by_cases hp : (s.descs.getD i default).pinCnt ≠ 0
      · -- PagePinned: the scan stops with no state change
        have hstep : flushFileGo file (i :: rest) s tr = .err .pagePinned s tr := by
          unfold flushFileGo
          rw [if_pos hm, if_pos hp]
        refine ⟨[], i :: rest, rfl, ?_, ?_, ?_, ?_,
          ⟨[], by rw [hstep]; simp [Res.trace], ?_⟩, ?_⟩
        · intro j hj; cases hj
        · intro j _; rw [hstep]; rfl
        · intro u s' tr' h; rw [hstep] at h; cases h
        · intro e s' tr' h
          rw [hstep] at h
          injection h with h1 h2 h3
          exact ⟨i, rest, rfl, hm, fun _ => h1.symm, fun hz => absurd hz hp⟩
        · intro ev hev; cases hev
        · intro kk hkk; rw [hstep]; exact hkk
      · by_cases hv : (s.descs.getD i default).valid = false
        · -- BadBuffer: the scan stops with no state change
          have hstep : flushFileGo file (i :: rest) s tr = .err .badBuffer s tr := by
            unfold flushFileGo
            rw [if_pos hm, if_neg hp, if_pos hv]
          refine ⟨[], i :: rest, rfl, ?_, ?_, ?_, ?_,
            ⟨[], by rw [hstep]; simp [Res.trace], ?_⟩, ?_⟩
          · intro j hj; cases hj
          · intro j _; rw [hstep]; rfl
          · intro u s' tr' h; rw [hstep] at h; cases h
          · intro e s' tr' h
            rw [hstep] at h
            injection h with h1 h2 h3
            exact ⟨i, rest, rfl, hm, fun hz => absurd hz hp, fun _ => ⟨h1.symm, hv⟩⟩
          · intro ev hev; cases hev
          · intro kk hkk; rw [hstep]; exact hkk
        · -- flush this frame and continue scanning
          have hvt : (s.descs.getD i default).valid = true := by simpa using hv
          have hpz : (s.descs.getD i default).pinCnt = 0 := by push_neg at hp; exact hp
          have hilen : i < s.descs.length := lt_length_of_getD_file hm
          have hstep : flushFileGo file (i :: rest) s tr =
              flushFileGo file rest
                { s with
                  table := tableRemove s.table (file, (s.descs.getD i default).pageNo)
                  descs := s.descs.set i BufDesc.clearDesc }
                (tr ++ (if (s.descs.getD i default).dirty = true
                    then [Ev.fileWrite file (s.descs.getD i default).pageNo] else [])
                  ++ [Ev.clearEv i]) := by
            conv_lhs => unfold flushFileGo
            rw [if_pos hm, if_neg hp, if_neg hv]
          obtain ⟨P, Q, hPQ, h1, h2, h3, h4, ⟨δ, hδ, hδev⟩, h6⟩ := ih
            { s with
              table := tableRemove s.table (file, (s.descs.getD i default).pageNo)
              descs := s.descs.set i BufDesc.clearDesc }
            (tr ++ (if (s.descs.getD i default).dirty = true
                then [Ev.fileWrite file (s.descs.getD i default).pageNo] else [])
              ++ [Ev.clearEv i]) hnd'
          have hne : ∀ j, j ≠ i →
              (s.descs.set i BufDesc.clearDesc).getD j default = s.descs.getD j default :=
            fun j hj => getD_set_ne (fun he => hj he.symm)
          have hPrest : ∀ j ∈ P, j ∈ rest := fun j hj => by
            rw [hPQ]; exact List.mem_append_left _ hj
          have hiP : i ∉ P := fun h => hind (hPrest i h)
          have hji : ∀ j ∈ P, j ≠ i := fun j hj he => hind (he ▸ hPrest j hj)
          dsimp only at h1 h2 h4 hδev
          refine ⟨i :: P, Q, by rw [List.cons_append, hPQ], ?_, ?_, ?_, ?_,
            ⟨(if (s.descs.getD i default).dirty = true
                then [Ev.fileWrite file (s.descs.getD i default).pageNo] else [])
              ++ [Ev.clearEv i] ++ δ, ?_, ?_⟩, ?_⟩
          · intro j hj hmj
            rcases List.mem_cons.mp hj with rfl | hj
            · refine ⟨hpz, hvt, ?_, ?_, ?_, ?_⟩
              · rw [hstep]
                exact (h2 j (Or.inl hiP)).trans (getD_set_self hilen)
              · rw [hstep, hδ]
                exact List.mem_append_left _ (List.mem_append_right _ (by simp))
              · intro hdirty
                rw [hstep, hδ]
                refine List.mem_append_left _ (List.mem_append_left _ ?_)
                exact List.mem_append_right _ (by rw [if_pos hdirty]; simp)
              · rw [hstep]
                exact h6 _ tableLookup_remove_self
            · have hjine := hji j hj
              have hdesc := hne j hjine
              obtain ⟨c1, c2, c3, c4, c5, c6⟩ := h1 j hj (by rw [hdesc]; exact hmj)
              rw [hdesc] at c1 c2 c5 c6
              rw [hstep]
              exact ⟨c1, c2, c3, c4, c5, c6⟩
          · intro j hj
            rw [hstep]
            rcases hj with hj | hj
            · have hji' : j ≠ i := fun he => hj (he ▸ List.mem_cons_self i P)
              have hjP : j ∉ P := fun hc => hj (List.mem_cons_of_mem _ hc)
              exact (h2 j (Or.inl hjP)).trans (hne j hji')
            · have hji' : j ≠ i := fun he => hj (he ▸ hm)
              refine ((h2 j (Or.inr ?_)).trans (hne j hji'))
              rw [hne j hji']
              exact hj
          · intro u s' tr' h
            rw [hstep] at h
            exact h3 u s' tr' h
          · intro e s' tr' h
            rw [hstep] at h
            obtain ⟨q, Q', hQ, f1, f2, f3⟩ := h4 e s' tr' h
            have hqrest : q ∈ rest := by
              rw [hPQ]
              exact List.mem_append_right _ (hQ ▸ List.mem_cons_self q Q')
            have hqi : q ≠ i := fun he => hind (he ▸ hqrest)
            rw [hne q hqi] at f1 f2 f3
            exact ⟨q, Q', hQ, f1, f2, f3⟩
          · rw [hstep, hδ]
            simp [List.append_assoc]
          · intro ev hev
            rcases List.mem_append.mp hev with hev | hev
            · rcases List.mem_append.mp hev with hev | hev
              · by_cases hdirty : (s.descs.getD i default).dirty = true
                · rw [if_pos hdirty] at hev
                  exact Or.inr ⟨i, List.mem_cons_self i P, hm, hdirty, List.mem_singleton.mp hev⟩
                · rw [if_neg hdirty] at hev
                  cases hev
              · exact Or.inl ⟨i, List.mem_cons_self i P, hm, List.mem_singleton.mp hev⟩
            · rcases hδev ev hev with ⟨j, hj, hmj, hevj⟩ | ⟨j, hj, hmj, hdj, hevj⟩
              · rw [hne j (hji j hj)] at hmj
                exact Or.inl ⟨j, List.mem_cons_of_mem _ hj, hmj, hevj⟩
              · rw [hne j (hji j hj)] at hmj hdj hevj
                exact Or.inr ⟨j, List.mem_cons_of_mem _ hj, hmj, hdj, hevj⟩
          · intro kk hkk
            rw [hstep]
            exact h6 kk (tableLookup_none_of_remove hkk)
    · -- frame does not belong to the file: skip it
      obtain ⟨P, Q, hPQ, h1, h2, h3, h4, ⟨δ, hδ, hδev⟩, h6⟩ := ih s tr hnd'
      have hstep : flushFileGo file (i :: rest) s tr = flushFileGo file rest s tr := by
        conv_lhs => unfold flushFileGo
        rw [if_neg hm]
      refine ⟨i :: P, Q, by rw [List.cons_append, hPQ], ?_, ?_, ?_, ?_, ⟨δ, ?_, ?_⟩, ?_⟩
      · intro j hj hmj
        rcases List.mem_cons.mp hj with rfl | hj
        · exact absurd hmj hm
        · rw [hstep]
          exact h1 j hj hmj
      · intro j hj
        rw [hstep]
        refine h2 j ?_
        rcases hj with hj | hj
        · exact Or.inl (fun hc => hj (List.mem_cons_of_mem _ hc))
        · exact Or.inr hj
      · intro u s' tr' h
        rw [hstep] at h
        exact h3 u s' tr' h
      · intro e s' tr' h
        rw [hstep] at h
        exact h4 e s' tr' h
      · rw [hstep]; exact hδ
      · intro ev hev
        rcases hδev ev hev with ⟨j, hj, hmj, hevj⟩ | ⟨j, hj, hmj, hdj, hevj⟩
        · exact Or.inl ⟨j, List.mem_cons_of_mem _ hj, hmj, hevj⟩
        · exact Or.inr ⟨j, List.mem_cons_of_mem _ hj, hmj, hdj, hevj⟩
      · intro kk hkk
        rw [hstep]
        exact h6 kk hkk

/-- C6: `flushFile` scans descriptors in frame order; there is a cut `k`
such that every earlier frame of the file was checked unpinned and valid
and then flushed (written back exactly when dirty, page-table entry
removed, descriptor cleared) and these effects persist, every frame at or
past the cut (and every frame of another file) is untouched, a normal
return means the cut is the whole pool, and an error stops the scan at
frame `k`, raising `PagePinned` when that frame is pinned and otherwise
`BadBuffer` with the frame invalid; writes and clears in the trace come
only from dirty (respectively, all) flushed frames of the file. -/
theorem c6_flushFile_per_frame (s : BufState) (file : Nat) :
    ∃ k, k ≤ s.numBufs ∧
      (∀ j, j < k → (s.descs.getD j default).file = some file →
        (s.descs.getD j default).pinCnt = 0 ∧
        (s.descs.getD j default).valid = true ∧
        (flushFile s file).state.descs.getD j default = BufDesc.clearDesc ∧
        Ev.clearEv j ∈ (flushFile s file).trace ∧
        ((s.descs.getD j default).dirty = true →
          Ev.fileWrite file (s.descs.getD j default).pageNo ∈ (flushFile s file).trace) ∧
        tableLookup (flushFile s file).state.table
          (file, (s.descs.getD j default).pageNo) = none) ∧
      (∀ j, (k ≤ j ∨ ¬ (s.descs.getD j default).file = some file) →
        (flushFile s file).state.descs.getD j default = s.descs.getD j default) ∧
      (∀ u s' tr, flushFile s file = .ok u s' tr → k = s.numBufs) ∧
      (∀ e s' tr, flushFile s file = .err e s' tr →
        k < s.numBufs ∧ (s.descs.getD k default).file = some file ∧
        ((s.descs.getD k default).pinCnt ≠ 0 → e = .pagePinned) ∧
        ((s.descs.getD k default).pinCnt = 0 → e = .badBuffer ∧
          (s.descs.getD k default).valid = false)) ∧
      (∀ f' p, Ev.fileWrite f' p ∈ (flushFile s file).trace →
        f' = file ∧ ∃ j, j < k ∧ (s.descs.getD j default).file = some file ∧
          (s.descs.getD j default).dirty = true ∧ (s.descs.getD j default).pageNo = p) ∧
      (∀ j, Ev.clearEv j ∈ (flushFile s file).trace →
        j < k ∧ (s.descs.getD j default).file = some file) := by
  obtain ⟨P, Q, hPQ, h1, h2, h3, h4, ⟨δ, hδ, hδev⟩, _⟩ :=
    flushFileGo_char file (List.range s.numBufs) s [] (List.nodup_range s.numBufs)
  have hlen : P.length + Q.length = s.numBufs := by
    have := congrArg List.length hPQ
    rw [List.length_append _ _, List.length_range] at this
    omega
  have hkn : P.length ≤ s.numBufs := by omega
  have hPtake : P = List.range P.length := by
    have h1' : (List.range s.numBufs).take P.length = P := by
      rw [hPQ]
      exact List.take_left P Q
    have h2' : (List.range s.numBufs).take P.length = List.range P.length := by
      rw [List.take_range P.length s.numBufs]
      congr 1
      omega
    exact h1'.symm.trans h2'
  have hPmem : ∀ j, j ∈ P ↔ j < P.length := by
    intro j
    conv_lhs => rw [hPtake]
    exact List.mem_range
  have htr : (flushFile s file).trace = δ := by
    unfold flushFile
    rw [hδ]
    simp
  refine ⟨P.length, hkn, ?_, ?_, ?_, ?_, ?_, ?_⟩
  · intro j hj hmj
    exact h1 j ((hPmem j).mpr hj) hmj
  · intro j hj
    refine h2 j ?_
    rcases hj with hj | hj
    · exact Or.inl (fun hc => by have := (hPmem j).mp hc; omega)
    · exact Or.inr hj
  · intro u s' tr h
    have hQ : Q = [] := h3 u s' tr h
    rw [hQ] at hlen
    simpa using hlen
  · intro e s' tr h
    obtain ⟨q, Q', hQ, f1, f2, f3⟩ := h4 e s' tr h
    have hkl : P.length < s.numBufs := by
      rw [hQ] at hlen
      simp at hlen
      omega
    have hq : q = P.length := by
      have hx : (List.range s.numBufs)[P.length]? = some q := by
        rw [hPQ, hQ, List.getElem?_append_right (Nat.le_refl _)]
        simp
      rw [List.getElem?_eq_getElem (by simpa using hkl)] at hx
      simp at hx
      omega
    rw [hq] at f1 f2 f3
    exact ⟨hkl, f1, f2, f3⟩
  · intro f' p hmem
    rw [htr] at hmem
    rcases hδev _ hmem with ⟨j, hj, hmj, hevj⟩ | ⟨j, hj, hmj, hdj, hevj⟩
    · cases hevj
    · injection hevj with e1 e2
      exact ⟨e1, j, (hPmem j).mp hj, hmj, hdj, e2.symm⟩
  · intro j hmem
    rw [htr] at hmem
    rcases hδev _ hmem with ⟨j', hj', hmj', hevj'⟩ | ⟨j', hj', hmj', hdj', hevj'⟩
    · injection hevj' with e1
      rw [e1]
      exact ⟨(hPmem j').mp hj', hmj'⟩
    · cases hevj'

/-- Two-frame pool: frame 0 holds a dirty unpinned page 3 of file 1 and
frame 1 a pinned page 4 of file 1. -/
def flushDemoState : BufState :=
  ⟨2, [⟨some 1, 3, 0, true, false, true⟩, ⟨some 1, 4, 2, false, false, true⟩],
    [((1, 3), 0), ((1, 4), 1)], 1, fun _ => 5⟩

/-- Concrete instantiation of `c6_flushFile_per_frame` on `flushDemoState`:
the scan flushes frame 0 (one write, one clear), stops at frame 1 with
`PagePinned`, and the flush of frame 0 persists (second conjunct, by
evaluation). -/
theorem c6_flushFile_per_frame_witness :
    (∃ k, k ≤ flushDemoState.numBufs ∧
      (∀ j, j < k → (flushDemoState.descs.getD j default).file = some 1 →
        (flushDemoState.descs.getD j default).pinCnt = 0 ∧
        (flushDemoState.descs.getD j default).valid = true ∧
        (flushFile flushDemoState 1).state.descs.getD j default = BufDesc.clearDesc ∧
        Ev.clearEv j ∈ (flushFile flushDemoState 1).trace ∧
        ((flushDemoState.descs.getD j default).dirty = true →
          Ev.fileWrite 1 (flushDemoState.descs.getD j default).pageNo ∈
            (flushFile flushDemoState 1).trace) ∧
        tableLookup (flushFile flushDemoState 1).state.table
          (1, (flushDemoState.descs.getD j default).pageNo) = none) ∧
      (∀ j, (k ≤ j ∨ ¬ (flushDemoState.descs.getD j default).file = some 1) →
        (flushFile flushDemoState 1).state.descs.getD j default =
          flushDemoState.descs.getD j default) ∧
      (∀ u s' tr, flushFile flushDemoState 1 = .ok u s' tr → k = flushDemoState.numBufs) ∧
      (∀ e s' tr, flushFile flushDemoState 1 = .err e s' tr →
        k < flushDemoState.numBufs ∧
        (flushDemoState.descs.getD k default).file = some 1 ∧
        ((flushDemoState.descs.getD k default).pinCnt ≠ 0 → e = .pagePinned) ∧
        ((flushDemoState.descs.getD k default).pinCnt = 0 → e = .badBuffer ∧
          (flushDemoState.descs.getD k default).valid = false)) ∧
      (∀ f' p, Ev.fileWrite f' p ∈ (flushFile flushDemoState 1).trace →
        f' = 1 ∧ ∃ j, j < k ∧ (flushDemoState.descs.getD j default).file = some 1 ∧
          (flushDemoState.descs.getD j default).dirty = true ∧
          (flushDemoState.descs.getD j default).pageNo = p) ∧
      (∀ j, Ev.clearEv j ∈ (flushFile flushDemoState 1).trace →
        j < k ∧ (flushDemoState.descs.getD j default).file = some 1)) ∧
    flushFile flushDemoState 1 =
      .err .pagePinned
        ⟨2, [BufDesc.clearDesc, ⟨some 1, 4, 2, false, false, true⟩],
          [((1, 4), 1)], 1, fun _ => 5⟩
        [Ev.fileWrite 1 3, Ev.clearEv 0] :=
  ⟨c6_flushFile_per_frame flushDemoState 1, rfl⟩
end BufMgr
